import Mathlib

/-!
Verification development for the `schiebung` transform-buffer library.

The Rust sources are shallowly embedded:

* timestamps (`f64` seconds in the source) are modelled as rationals `ℚ`,
  which keeps comparison and interpolation weights exact and decidable;
* poses (`nalgebra::Isometry3<f64>`) are modelled by an abstract type `P`;
  where composition is needed (`lookup_transform`), `P` carries a `Group`
  instance (rigid-body isometries form a group under composition);
* `nalgebra`'s `lerp_slerp` is an external-library function and is passed in
  as an abstract parameter `lerpSlerp : P → P → ℚ → P`;
* Rust `panic!`/`unwrap()` failures are modelled explicitly by dedicated
  result constructors, never by default values;
* `petgraph`'s `DiGraphMap` is modelled as a node list plus an association
  list of directed edges keyed by ordered node pairs, mirroring the
  insertion-ordered adjacency of the library; `is_cyclic_undirected` is an
  external-library function modelled by an executable cycle check which is
  proven below (`isCyclicUndirected_eq_true_of_cycle`,
  `acyclic_of_isCyclicUndirected_eq_false`) to agree with the documented
  semantics "the graph, viewed undirected, contains a cycle" on the graphs
  the buffer ever submits to it.
-/

/-- `schiebung_core::types::TransformType`. -/
inductive TransformType where
  | Static : TransformType
  | Dynamic : TransformType
deriving DecidableEq, Repr

/-- `schiebung_core::types::StampedIsometry`: a pose plus a timestamp.
The pose type is abstract (`P`). -/
structure StampedPose (P : Type) where
  pose : P
  stamp : ℚ
deriving DecidableEq, Repr

/-- `schiebung_core::TfError`. -/
inductive TfError where
  | AttemptedLookupInPast : TfError
  | AttemptedLookUpInFuture : TfError
  | CouldNotFindTransform : TfError
  | InvalidGraph : TfError
deriving DecidableEq, Repr

/-- Result of `TransformHistory::interpolate_isometry_at_time`.  The source
returns `Result<Isometry3, TfError>` but can also panic (`unwrap()` on an
empty history); the `panic` constructor records that outcome. -/
inductive InterpResult (P : Type) where
  | ok : P → InterpResult P
  | err : TfError → InterpResult P
  | panic : InterpResult P
deriving DecidableEq, Repr

/-- `schiebung_core::TransformHistory`: the bounded history of one edge.
The `VecDeque` is modelled as a list whose head is the deque front and whose
last element is the deque back. -/
structure TransformHistory (P : Type) where
  history : List (StampedPose P)
  kind : TransformType
  max_history : ℕ
deriving DecidableEq, Repr

/-- `TransformHistory::new`. -/
def TransformHistory.new (P : Type) (kind : TransformType) (max_history : ℕ) :
    TransformHistory P :=
  { history := [], kind := kind, max_history := max_history }

/-- `TransformHistory::update`: `push_back`, then `pop_front` once when the
length exceeds `max_history`. -/
def TransformHistory.update {P : Type} (th : TransformHistory P)
    (sp : StampedPose P) : TransformHistory P :=
  let pushed := th.history ++ [sp]
  { th with history := if th.max_history < pushed.length then pushed.drop 1 else pushed }

/-- Result of Rust's `binary_search_by` on a slice: `found i` is `Ok(i)`
(an index holding a comparison-equal element), `notFound i` is `Err(i)`
(the insertion point). -/
inductive SearchResult where
  | found : ℕ → SearchResult
  | notFound : ℕ → SearchResult
deriving DecidableEq, Repr

/-- Core loop of Rust `slice::binary_search_by` (standard library, modelled
by its algorithm): maintains the bracket `[left, right)` and probes
`mid = left + (right - left) / 2`. -/
def binarySearchGo (stamps : List ℚ) (t : ℚ) (left right : ℕ) : SearchResult :=
  if h : left < right then
    let mid := left + (right - left) / 2
    match cmp (stamps.getD mid 0) t with
    | Ordering.lt => binarySearchGo stamps t (mid + 1) right
    | Ordering.gt => binarySearchGo stamps t left mid
    | Ordering.eq => SearchResult.found mid
  else
    SearchResult.notFound left
termination_by right - left
decreasing_by
  · have hm : left + (right - left) / 2 < right := by omega
    omega
  · have hm : left ≤ left + (right - left) / 2 := Nat.le_add_right _ _
    omega

/-- `history.binary_search_by(|entry| entry.stamp.partial_cmp(&time).unwrap())`. -/
def binarySearchStamps (stamps : List ℚ) (t : ℚ) : SearchResult :=
  binarySearchGo stamps t 0 stamps.length

/-- The stamps stored in a history, in deque order (front first). -/
def TransformHistory.stamps {P : Type} (th : TransformHistory P) : List ℚ :=
  th.history.map StampedPose.stamp

/-- `TransformHistory::interpolate_isometry_at_time`.  `lerpSlerp` stands for
`nalgebra`'s `Isometry3::lerp_slerp`.  The `Static` arm's
`history.back().unwrap()` panics on an empty history, which the model makes
explicit. -/
def TransformHistory.interpolate {P : Type} (lerpSlerp : P → P → ℚ → P)
    (th : TransformHistory P) (time : ℚ) : InterpResult P :=
  match th.kind with
  | TransformType.Static =>
    match th.history.getLast? with
    | none => InterpResult.panic
    | some sp => InterpResult.ok sp.pose
  | TransformType.Dynamic =>
    if th.history.length < 2 then
      InterpResult.err TfError.CouldNotFindTransform
    else
      match binarySearchStamps th.stamps time with
      | SearchResult.found i =>
        match th.history.get? i with
        | none => InterpResult.panic
        | some sp => InterpResult.ok sp.pose
      | SearchResult.notFound i =>
        if i = 0 then
          InterpResult.err TfError.AttemptedLookupInPast
        else if th.history.length ≤ i then
          InterpResult.err TfError.AttemptedLookUpInFuture
        else
          match th.history.get? (i - 1), th.history.get? i with
          | some p0, some p1 =>
            InterpResult.ok
              (lerpSlerp p0.pose p1.pose ((time - p0.stamp) / (p1.stamp - p0.stamp)))
          | _, _ => InterpResult.panic

lemma binarySearchGo_found_spec (s : List ℚ) (t : ℚ) :
    ∀ (n l r i : ℕ), r - l ≤ n → r ≤ s.length →
    binarySearchGo s t l r = SearchResult.found i →
    i < s.length ∧ s.getD i 0 = t := by
  intro n
  induction n with
  | zero =>
    intro l r i hle hr hfound
    rw [binarySearchGo] at hfound
    have : ¬ l < r := by omega
    simp [this] at hfound
  | succ n ih =>
    intro l r i hle hr hfound
    rw [binarySearchGo] at hfound
    by_cases hlr : l < r
    · simp only [hlr, dif_pos] at hfound
      set mid := l + (r - l) / 2 with hmid
      rcases hcmp : cmp (s.getD mid 0) t with _ | _ | _
      · rw [hcmp] at hfound
        exact ih (mid + 1) r i (by omega) hr hfound
      · rw [hcmp] at hfound
        simp only [SearchResult.found.injEq] at hfound
        subst hfound
        refine ⟨by omega, ?_⟩
        exact (cmp_eq_eq_iff _ _).mp hcmp
      · rw [hcmp] at hfound
        exact ih l mid i (by omega) (by omega) hfound
    · simp [hlr] at hfound

lemma sorted_getD_lt (s : List ℚ) (hs : s.Sorted (· < ·)) {j k : ℕ}
    (hjk : j < k) (hk : k < s.length) : s.getD j 0 < s.getD k 0 := by
  have hj : j < s.length := lt_trans hjk hk
  rw [s.getD_eq_get 0 hj, s.getD_eq_get 0 hk]
  exact List.Sorted.rel_get_of_lt hs (by exact hjk)

lemma binarySearchGo_notFound_spec (s : List ℚ) (t : ℚ) (hs : s.Sorted (· < ·)) :
    ∀ (n l r i : ℕ), r - l ≤ n → l ≤ r → r ≤ s.length →
    (∀ j, j < l → s.getD j 0 < t) →
    (∀ j, r ≤ j → j < s.length → t < s.getD j 0) →
    binarySearchGo s t l r = SearchResult.notFound i →
    i ≤ s.length ∧ (∀ j, j < i → s.getD j 0 < t) ∧
      (∀ j, i ≤ j → j < s.length → t < s.getD j 0) := by
  intro n
  induction n with
  | zero =>
    intro l r i hle hlr0 hr hbelow habove hnf
    rw [binarySearchGo] at hnf
    have hnlt : ¬ l < r := by omega
    simp only [hnlt, dif_neg, not_false_iff, SearchResult.notFound.injEq] at hnf
    subst hnf
    exact ⟨by omega, hbelow, fun j hj hj2 => habove j (by omega) hj2⟩
  | succ n ih =>
    intro l r i hle hlr0 hr hbelow habove hnf
    rw [binarySearchGo] at hnf
    by_cases hlr : l < r
    · simp only [hlr, dif_pos] at hnf
      set mid := l + (r - l) / 2 with hmid
      have hmidr : mid < r := by omega
      have hmids : mid < s.length := by omega
      rcases hcmp : cmp (s.getD mid 0) t with _ | _ | _
      · rw [hcmp] at hnf
        have hmlt : s.getD mid 0 < t := (cmp_eq_lt_iff _ _).mp hcmp
        refine ih (mid + 1) r i (by omega) (by omega) hr ?_ habove hnf
        intro j hj
        rcases Nat.lt_or_ge j mid with hjm | hjm
        · exact lt_trans (sorted_getD_lt s hs hjm hmids) hmlt
        · have : j = mid := by omega
          subst this; exact hmlt
      · rw [hcmp] at hnf
        exact absurd hnf (by simp)
      · rw [hcmp] at hnf
        have hmgt : t < s.getD mid 0 := (cmp_eq_gt_iff _ _).mp hcmp
        refine ih l mid i (by omega) (by omega) (by omega) hbelow ?_ hnf
        intro j hj hj2
        rcases Nat.lt_or_ge mid j with hjm | hjm
        · exact lt_trans hmgt (sorted_getD_lt s hs hjm hj2)
        · have : j = mid := by omega
          subst this; exact hmgt
    · simp only [hlr, dif_neg, not_false_iff, SearchResult.notFound.injEq] at hnf
      subst hnf
      exact ⟨by omega, hbelow, fun j hj hj2 => habove j (by omega) hj2⟩

lemma binarySearchStamps_found (s : List ℚ) (t : ℚ) (i : ℕ)
    (h : binarySearchStamps s t = SearchResult.found i) :
    i < s.length ∧ s.getD i 0 = t :=
  binarySearchGo_found_spec s t s.length 0 s.length i (by omega) (le_refl _) h

lemma binarySearchStamps_notFound (s : List ℚ) (t : ℚ) (hs : s.Sorted (· < ·)) (i : ℕ)
    (h : binarySearchStamps s t = SearchResult.notFound i) :
    i ≤ s.length ∧ (∀ j, j < i → s.getD j 0 < t) ∧
      (∀ j, i ≤ j → j < s.length → t < s.getD j 0) :=
  binarySearchGo_notFound_spec s t hs s.length 0 s.length i (by omega) (by omega)
    (le_refl _) (by omega) (fun j hj hj2 => absurd hj2 (by omega)) h

lemma TransformHistory.stamps_length {P : Type} (th : TransformHistory P) :
    th.stamps.length = th.history.length := by
  simp [TransformHistory.stamps]

lemma TransformHistory.stamps_getD {P : Type} (th : TransformHistory P) {i : ℕ}
    {p : StampedPose P} (h : th.history.get? i = some p) :
    th.stamps.getD i 0 = p.stamp := by
  have hi : i < th.history.length := by
    by_contra hn
    rw [List.get?_eq_none.mpr (by omega)] at h
    exact Option.noConfusion h
  have hg : th.history.get ⟨i, hi⟩ = p := by
    have := List.get?_eq_get hi
    rw [this] at h
    exact Option.some.inj h
  rw [TransformHistory.stamps, List.getD_eq_getElem _ _ (by simpa using hi)]
  simp only [List.getElem_map]
  rw [← hg]
  simp [List.get_eq_getElem]

lemma get_some_lt_length {α : Type} {l : List α} {i : ℕ} {a : α}
    (h : l.get? i = some a) : i < l.length := by
  by_contra hn
  rw [List.get?_eq_none.mpr (by omega)] at h
  exact Option.noConfusion h

lemma getD_mem_of_lt (s : List ℚ) {j : ℕ} (hj : j < s.length) : s.getD j 0 ∈ s := by
  rw [List.getD_eq_getElem _ _ hj]
  exact List.getElem_mem hj

/-- Claim C4: on a `Dynamic` edge history whose stored timestamps are
strictly increasing, `interpolate_isometry_at_time` returns
`CouldNotFindTransform` when fewer than two samples are stored; the stored
pose on an exact timestamp hit; `AttemptedLookupInPast` when the query time
precedes every stored stamp; `AttemptedLookUpInFuture` when it follows every
stored stamp; and otherwise the `lerp_slerp` of the two samples bracketing
the query time, taken with weight `(t - t0) / (t1 - t0)`. -/
theorem spec_C4_dynamic_interpolation {P : Type} (lerpSlerp : P → P → ℚ → P)
    (th : TransformHistory P) (time : ℚ)
    (hkind : th.kind = TransformType.Dynamic)
    (hs : th.stamps.Sorted (· < ·)) :
    (th.history.length < 2 →
      th.interpolate lerpSlerp time = InterpResult.err TfError.CouldNotFindTransform) ∧
    (2 ≤ th.history.length → ∀ i p, th.history.get? i = some p → p.stamp = time →
      th.interpolate lerpSlerp time = InterpResult.ok p.pose) ∧
    (2 ≤ th.history.length → (∀ s ∈ th.stamps, time < s) →
      th.interpolate lerpSlerp time = InterpResult.err TfError.AttemptedLookupInPast) ∧
    (2 ≤ th.history.length → (∀ s ∈ th.stamps, s < time) →
      th.interpolate lerpSlerp time = InterpResult.err TfError.AttemptedLookUpInFuture) ∧
    (2 ≤ th.history.length → ∀ i p0 p1, th.history.get? i = some p0 →
      th.history.get? (i + 1) = some p1 → p0.stamp < time → time < p1.stamp →
      th.interpolate lerpSlerp time =
        InterpResult.ok (lerpSlerp p0.pose p1.pose
          ((time - p0.stamp) / (p1.stamp - p0.stamp)))) := by
  have hlen := th.stamps_length
  refine ⟨?_, ?_, ?_, ?_, ?_⟩
  · intro hlt
    simp only [TransformHistory.interpolate, hkind, if_pos hlt]
  · intro hge i p hget hstamp
    have hi : i < th.history.length := get_some_lt_length hget
    have hsi : th.stamps.getD i 0 = time := by rw [th.stamps_getD hget, hstamp]
    simp only [TransformHistory.interpolate, hkind]
    rw [if_neg (show ¬ th.history.length < 2 by omega)]
    rcases hsr : binarySearchStamps th.stamps time with j | j
    · obtain ⟨hj, hjt⟩ := binarySearchStamps_found _ _ _ hsr
      have hji : j = i := by
        by_contra hne
        rcases Nat.lt_or_ge j i with h1 | h1
        · have := sorted_getD_lt th.stamps hs h1 (by omega)
          rw [hjt, hsi] at this
          exact lt_irrefl _ this
        · have h2 : i < j := by omega
          have := sorted_getD_lt th.stamps hs h2 (by omega)
          rw [hjt, hsi] at this
          exact lt_irrefl _ this
      subst hji
      simp only [hsr, hget]
    · exfalso
      obtain ⟨hj, hbelow, habove⟩ := binarySearchStamps_notFound _ _ hs _ hsr
      rcases Nat.lt_or_ge i j with h1 | h1
      · have := hbelow i h1
        rw [hsi] at this
        exact lt_irrefl _ this
      · have := habove i h1 (by omega)
        rw [hsi] at this
        exact lt_irrefl _ this
  · intro hge hallgt
    simp only [TransformHistory.interpolate, hkind]
    rw [if_neg (show ¬ th.history.length < 2 by omega)]
    rcases hsr : binarySearchStamps th.stamps time with j | j
    · exfalso
      obtain ⟨hj, hjt⟩ := binarySearchStamps_found _ _ _ hsr
      have := hallgt _ (getD_mem_of_lt th.stamps hj)
      rw [hjt] at this
      exact lt_irrefl _ this
    · obtain ⟨hj, hbelow, habove⟩ := binarySearchStamps_notFound _ _ hs _ hsr
      have hj0 : j = 0 := by
        by_contra hne
        have h0 : th.stamps.getD 0 0 < time := hbelow 0 (by omega)
        have := hallgt _ (getD_mem_of_lt th.stamps (j := 0) (by omega))
        exact lt_irrefl _ (lt_trans h0 this)
      subst hj0
      simp [hsr]
  · intro hge halllt
    simp only [TransformHistory.interpolate, hkind]
    rw [if_neg (show ¬ th.history.length < 2 by omega)]
    rcases hsr : binarySearchStamps th.stamps time with j | j
    · exfalso
      obtain ⟨hj, hjt⟩ := binarySearchStamps_found _ _ _ hsr
      have := halllt _ (getD_mem_of_lt th.stamps hj)
      rw [hjt] at this
      exact lt_irrefl _ this
    · obtain ⟨hj, hbelow, habove⟩ := binarySearchStamps_notFound _ _ hs _ hsr
      have hjlen : th.history.length ≤ j := by
        by_contra hn
        have h1 : time < th.stamps.getD j 0 := habove j (le_refl _) (by omega)
        have h2 : th.stamps.getD j 0 < time :=
          halllt _ (getD_mem_of_lt th.stamps (by omega))
        exact lt_irrefl _ (lt_trans h1 h2)
      have hjne : j ≠ 0 := by omega
      simp only [hsr]
      rw [if_neg hjne, if_pos hjlen]
  · intro hge i p0 p1 hget0 hget1 hlt0 hlt1
    have hi1 : i + 1 < th.history.length := get_some_lt_length hget1
    have hsi0 : th.stamps.getD i 0 = p0.stamp := th.stamps_getD hget0
    have hsi1 : th.stamps.getD (i + 1) 0 = p1.stamp := th.stamps_getD hget1
    simp only [TransformHistory.interpolate, hkind]
    rw [if_neg (show ¬ th.history.length < 2 by omega)]
    rcases hsr : binarySearchStamps th.stamps time with j | j
    · exfalso
      obtain ⟨hj, hjt⟩ := binarySearchStamps_found _ _ _ hsr
      rcases Nat.lt_or_ge j (i + 1) with h1 | h1
      · rcases Nat.lt_or_ge j i with h2 | h2
        · have := sorted_getD_lt th.stamps hs h2 (by omega)
          rw [hjt, hsi0] at this
          exact lt_irrefl _ (lt_trans this hlt0)
        · have hji : j = i := by omega
          subst hji
          rw [hsi0] at hjt
          rw [hjt] at hlt0
          exact lt_irrefl _ hlt0
      · rcases Nat.lt_or_ge (i + 1) j with h2 | h2
        · have := sorted_getD_lt th.stamps hs h2 hj
          rw [hjt, hsi1] at this
          exact lt_irrefl _ (lt_trans hlt1 this)
        · have hji : j = i + 1 := by omega
          subst hji
          rw [hsi1] at hjt
          rw [hjt] at hlt1
          exact lt_irrefl _ hlt1
    · obtain ⟨hj, hbelow, habove⟩ := binarySearchStamps_notFound _ _ hs _ hsr
      have hik : i < j := by
        by_contra hn
        have := habove i (by omega) (by omega)
        rw [hsi0] at this
        exact lt_irrefl _ (lt_trans this hlt0)
      have hk1 : j ≤ i + 1 := by
        by_contra hn
        have := hbelow (i + 1) (by omega)
        rw [hsi1] at this
        exact lt_irrefl _ (lt_trans hlt1 this)
      have hji : j = i + 1 := by omega
      subst hji
      have hjne : i + 1 ≠ 0 := by omega
      have hjlt : ¬ th.history.length ≤ i + 1 := by omega
      simp only [hsr]
      rw [if_neg hjne, if_neg hjlt]
      have h11 : i + 1 - 1 = i := by omega
      rw [h11, hget0, hget1]

/-- Claim C1 counterexample: `TransformHistory::update` performs no timestamp
check whatsoever — appending a stamp that is not greater than the stored one
is not rejected with any error (the function is infallible) and mutates the
history, leaving the stored timestamps not strictly increasing. -/
theorem spec_C1_counterexample :
    (((TransformHistory.new Unit TransformType.Dynamic 1000).update ⟨(), 2⟩).update
        ⟨(), 1⟩).history = [⟨(), 2⟩, ⟨(), 1⟩] ∧
      ¬ ((((TransformHistory.new Unit TransformType.Dynamic 1000).update ⟨(), 2⟩).update
          ⟨(), 1⟩).stamps.Sorted (· < ·)) := by
  refine ⟨by decide, ?_⟩
  intro hsort
  have hstamps :
      ((((TransformHistory.new Unit TransformType.Dynamic 1000).update ⟨(), 2⟩).update
        ⟨(), 1⟩).stamps) = [2, 1] := by decide
  rw [hstamps] at hsort
  rcases hsort with _ | ⟨hrel, _⟩
  have h2 : (2 : ℚ) < 1 := hrel 1 (by simp)
  norm_num at h2

/-- Claim C1 amended: `TransformHistory::update` never rejects an entry.  It
always appends the stamped pose at the back of the deque (the new entry
becomes the most recent one) and evicts the front entry exactly when the
length would exceed `max_history`, so the capacity bound is maintained;
no ordering of timestamps is enforced. -/
theorem spec_C1_amended {P : Type} (th : TransformHistory P) (sp : StampedPose P)
    (hcap : th.history.length ≤ th.max_history) (hpos : 1 ≤ th.max_history) :
    (th.update sp).history.getLast? = some sp ∧
    (th.update sp).history.length ≤ th.max_history ∧
    (th.history.length < th.max_history → (th.update sp).history = th.history ++ [sp]) ∧
    (th.history.length = th.max_history →
      (th.update sp).history = th.history.drop 1 ++ [sp]) := by
  by_cases hfull : th.max_history < th.history.length + 1
  · have hlen1 : 1 ≤ th.history.length := by omega
    have hdrop : ((th.history ++ [sp]).drop 1) = th.history.drop 1 ++ [sp] :=
      List.drop_append_of_le_length hlen1
    refine ⟨?_, ?_, ?_, ?_⟩
    · simp only [TransformHistory.update, List.length_append, List.length_singleton,
        if_pos hfull, hdrop]
      exact List.getLast?_concat _
    · simp only [TransformHistory.update, List.length_append, List.length_singleton,
        if_pos hfull, List.length_drop]
      omega
    · intro hlt; omega
    · intro _
      simp only [TransformHistory.update, List.length_append, List.length_singleton,
        if_pos hfull, hdrop]
  · refine ⟨?_, ?_, ?_, ?_⟩
    · simp only [TransformHistory.update, List.length_append, List.length_singleton,
        if_neg hfull]
      exact List.getLast?_concat _
    · simp only [TransformHistory.update, List.length_append, List.length_singleton,
        if_neg hfull]
      omega
    · intro _
      simp only [TransformHistory.update, List.length_append, List.length_singleton,
        if_neg hfull]
    · intro heq; omega

/-- Witness for the amended C1 statement at a concrete full history. -/
theorem spec_C1_amended_witness :
    (((⟨[⟨(), 0⟩], TransformType.Dynamic, 1⟩ : TransformHistory Unit).update
        ⟨(), 5⟩).history.getLast? = some ⟨(), 5⟩ ∧
      ((⟨[⟨(), 0⟩], TransformType.Dynamic, 1⟩ : TransformHistory Unit).update
        ⟨(), 5⟩).history.length ≤ 1 ∧
      ((1 : ℕ) < 1 →
        ((⟨[⟨(), 0⟩], TransformType.Dynamic, 1⟩ : TransformHistory Unit).update
          ⟨(), 5⟩).history = [⟨(), 0⟩] ++ [⟨(), 5⟩]) ∧
      ((1 : ℕ) = 1 →
        ((⟨[⟨(), 0⟩], TransformType.Dynamic, 1⟩ : TransformHistory Unit).update
          ⟨(), 5⟩).history = [(⟨(), 0⟩ : StampedPose Unit)].drop 1 ++ [⟨(), 5⟩])) :=
  spec_C1_amended (⟨[⟨(), 0⟩], TransformType.Dynamic, 1⟩ : TransformHistory Unit)
    ⟨(), 5⟩ (by decide) (by decide)

/-- Claim C7 counterexample: on an empty `Static` history the `Static` arm of
`interpolate_isometry_at_time` executes `history.back().unwrap()`, which
panics; it does not return an error value. -/
theorem spec_C7_counterexample :
    TransformHistory.interpolate (P := Unit) (fun _ _ _ => ())
        (TransformHistory.new Unit TransformType.Static 1000) 0 = InterpResult.panic ∧
      ∀ e : TfError,
        TransformHistory.interpolate (P := Unit) (fun _ _ _ => ())
          (TransformHistory.new Unit TransformType.Static 1000) 0 ≠ InterpResult.err e := by
  refine ⟨rfl, ?_⟩
  intro e h
  have h' : (InterpResult.panic : InterpResult Unit) = InterpResult.err e := h
  exact InterpResult.noConfusion h'

/-- Claim C7 amended: a `Static` edge history yields the most recently
appended pose regardless of the query time whenever the history is
non-empty; on an empty history the code panics (`unwrap()` on `None`)
instead of returning an error value. -/
theorem spec_C7_amended {P : Type} (lerpSlerp : P → P → ℚ → P)
    (th : TransformHistory P) (time : ℚ)
    (hkind : th.kind = TransformType.Static) :
    (∀ sp, th.history.getLast? = some sp →
      th.interpolate lerpSlerp time = InterpResult.ok sp.pose) ∧
    (th.history = [] → th.interpolate lerpSlerp time = InterpResult.panic) := by
  constructor
  · intro sp hl
    simp only [TransformHistory.interpolate, hkind, hl]
  · intro he
    simp only [TransformHistory.interpolate, hkind, he, List.getLast?_nil]

/-- Witness for the amended C7 statement at a concrete one-entry history. -/
theorem spec_C7_amended_witness :
    ((∀ sp : StampedPose Unit,
        List.getLast? [(⟨(), 3⟩ : StampedPose Unit)] = some sp →
        TransformHistory.interpolate (P := Unit) (fun _ _ _ => ())
          ⟨[⟨(), 3⟩], TransformType.Static, 1000⟩ 7 = InterpResult.ok sp.pose) ∧
      ([(⟨(), 3⟩ : StampedPose Unit)] = [] →
        TransformHistory.interpolate (P := Unit) (fun _ _ _ => ())
          ⟨[⟨(), 3⟩], TransformType.Static, 1000⟩ 7 = InterpResult.panic)) :=
  spec_C7_amended (fun _ _ _ => ()) ⟨[⟨(), 3⟩], TransformType.Static, 1000⟩ 7 rfl

/-- Witness for C4: the bracketing clause evaluated on a concrete two-sample
dynamic history at the midpoint. -/
theorem spec_C4_dynamic_interpolation_witness :
    TransformHistory.interpolate (P := Unit) (fun _ _ _ => ())
        ⟨[⟨(), 0⟩, ⟨(), 1⟩], TransformType.Dynamic, 1000⟩ (1 / 2) =
      InterpResult.ok ((fun (_ _ : Unit) (_ : ℚ) => ()) () ()
        (((1 : ℚ) / 2 - (0 : ℚ)) / ((1 : ℚ) - (0 : ℚ)))) :=
  (spec_C4_dynamic_interpolation (fun _ _ _ => ())
      ⟨[⟨(), 0⟩, ⟨(), 1⟩], TransformType.Dynamic, 1000⟩ (1 / 2) rfl
      (by decide)).2.2.2.2 (by decide) 0 ⟨(), 0⟩ ⟨(), 1⟩ rfl rfl (by norm_num) (by norm_num)

/-- `schiebung_core::NodeIndex`: name → dense integer id, with a
monotonically growing counter.  The `HashMap` is modelled as an
insertion-ordered association list. -/
structure NodeIndex where
  max_node_id : ℕ
  node_ids : List (String × ℕ)
deriving DecidableEq, Repr

def NodeIndex.new : NodeIndex := ⟨0, []⟩

def NodeIndex.lookup (ix : NodeIndex) (node : String) : Option ℕ :=
  (ix.node_ids.find? (fun e => e.1 == node)).map Prod.snd

/-- `NodeIndex::index`: `entry(node).or_insert_with(fresh id)`. -/
def NodeIndex.index (ix : NodeIndex) (node : String) : ℕ × NodeIndex :=
  match ix.lookup node with
  | some id => (id, ix)
  | none =>
    (ix.max_node_id, ⟨ix.max_node_id + 1, ix.node_ids ++ [(node, ix.max_node_id)]⟩)

/-- `NodeIndex::contains`. -/
def NodeIndex.contains (ix : NodeIndex) (node : String) : Bool :=
  (ix.lookup node).isSome

/-- `petgraph::graphmap::DiGraphMap<usize, TransformHistory>`: node set and
directed edges with their weights, both in insertion order. -/
structure DiGraph (P : Type) where
  nodes : List ℕ
  edges : List ((ℕ × ℕ) × TransformHistory P)
deriving DecidableEq, Repr

def DiGraph.containsNode {P : Type} (g : DiGraph P) (n : ℕ) : Bool :=
  g.nodes.contains n

def DiGraph.addNode {P : Type} (g : DiGraph P) (n : ℕ) : DiGraph P :=
  if g.containsNode n then g else { g with nodes := g.nodes ++ [n] }

def DiGraph.containsEdge {P : Type} (g : DiGraph P) (a b : ℕ) : Bool :=
  g.edges.any (fun e => e.1 == (a, b))

def DiGraph.edgeWeight {P : Type} (g : DiGraph P) (a b : ℕ) :
    Option (TransformHistory P) :=
  (g.edges.find? (fun e => e.1 == (a, b))).map Prod.snd

def DiGraph.addEdge {P : Type} (g : DiGraph P) (a b : ℕ) (w : TransformHistory P) :
    DiGraph P :=
  let g' := (g.addNode a).addNode b
  { g' with edges := g'.edges ++ [((a, b), w)] }

def DiGraph.removeEdge {P : Type} (g : DiGraph P) (a b : ℕ) : DiGraph P :=
  { g with edges := g.edges.filter (fun e => !(e.1 == (a, b))) }

/-- `remove_node` also removes all incident edges (petgraph semantics). -/
def DiGraph.removeNode {P : Type} (g : DiGraph P) (n : ℕ) : DiGraph P :=
  { nodes := g.nodes.filter (fun m => !(m == n)),
    edges := g.edges.filter (fun e => !(e.1.1 == n) && !(e.1.2 == n)) }

/-- `graph.neighbors_directed(n, Incoming).count()`. -/
def DiGraph.incomingCount {P : Type} (g : DiGraph P) (n : ℕ) : ℕ :=
  (g.edges.filter (fun e => e.1.2 == n)).length

/-- `graph.neighbors_directed(n, Outgoing).count()`. -/
def DiGraph.outgoingCount {P : Type} (g : DiGraph P) (n : ℕ) : ℕ :=
  (g.edges.filter (fun e => e.1.1 == n)).length

/-- `graph.neighbors_directed(n, Incoming).next()`: the first incoming
neighbour in edge-insertion order. -/
def DiGraph.parent? {P : Type} (g : DiGraph P) (n : ℕ) : Option ℕ :=
  (g.edges.find? (fun e => e.1.2 == n)).map (fun e => e.1.1)

/-- `graph.edge_weight_mut(a, b).unwrap().update(sp)` (the unwrap is safe at
its call sites; mapping over the list leaves other edges untouched). -/
def DiGraph.updateEdge {P : Type} (g : DiGraph P) (a b : ℕ) (sp : StampedPose P) :
    DiGraph P :=
  { g with
    edges := g.edges.map (fun e => if e.1 == (a, b) then (e.1, e.2.update sp) else e) }

/-- Number of parent-pointer steps that can be taken from `n` within `fuel`
steps (each node's parent is its first incoming neighbour). -/
def chainSteps {P : Type} (g : DiGraph P) : ℕ → ℕ → ℕ
  | 0, _ => 0
  | fuel + 1, n =>
    match g.parent? n with
    | none => 0
    | some p => 1 + chainSteps g fuel p

/-- Models `petgraph::algo::is_cyclic_undirected` (an external library
function, specified as: the graph, with every edge taken as undirected,
contains a cycle).  On the class of graphs the buffer submits to it this
check is proven equivalent to the existence of an undirected cycle
(`isCyclicUndirected_eq_true_of_cycle` below): a cycle forces some
parent-pointer chain to run forever. -/
def DiGraph.isCyclicUndirected {P : Type} (g : DiGraph P) : Bool :=
  g.nodes.any (fun n => chainSteps g (g.nodes.length + 1) n == g.nodes.length + 1)

/-- `schiebung_core::BufferTree` (the `config` field is reduced to the only
configuration value the buffer logic reads, `max_transform_history`). -/
structure BufferTree (P : Type) where
  graph : DiGraph P
  index : NodeIndex
  max_transform_history : ℕ
deriving DecidableEq, Repr

/-- `BufferTree::new` with the given configured history cap. -/
def BufferTree.new (P : Type) (maxHistory : ℕ) : BufferTree P :=
  ⟨⟨[], []⟩, NodeIndex.new, maxHistory⟩

/-- The rollback block of `BufferTree::update`: remove the provisional edge,
then remove either endpoint that is left with no incident edge. -/
def rollbackGraph {P : Type} (g2 : DiGraph P) (s t : ℕ) : DiGraph P :=
  let g3 := g2.removeEdge s t
  let g4 :=
    if g3.incomingCount t < 1 ∧ g3.outgoingCount t < 1 then g3.removeNode t else g3
  if g4.incomingCount s < 1 ∧ g4.outgoingCount s < 1 then g4.removeNode s else g4

/-- `BufferTree::update`, translated line by line.  The pair returns the
`Result` together with the buffer state after the call. -/
def BufferTree.update {P : Type} (b : BufferTree P) (source target : String)
    (sp : StampedPose P) (kind : TransformType) :
    Except TfError Unit × BufferTree P :=
  let si := b.index.index source
  let ti := si.2.index target
  let s := si.1
  let t := ti.1
  let ix := ti.2
  let g1 := (b.graph.addNode s).addNode t
  if !(g1.containsEdge s t) then
    let g2 := g1.addEdge s t (TransformHistory.new P kind b.max_transform_history)
    if g2.isCyclicUndirected || decide (1 < g2.incomingCount t) then
      (Except.error TfError.InvalidGraph, ⟨rollbackGraph g2 s t, ix, b.max_transform_history⟩)
    else
      (Except.ok (), ⟨g2.updateEdge s t sp, ix, b.max_transform_history⟩)
  else
    (Except.ok (), ⟨g1.updateEdge s t sp, ix, b.max_transform_history⟩)

/-- First loop of `BufferTree::find_path`: climb the parent chain from
`from`, accumulating ancestors; return early (flag `true`) when the parent
equals the target.  `fuel` bounds the climb; on the graphs reachable by
buffer operations a fuel of `|nodes| + 1` is never exhausted. -/
def findPathLoop1 {P : Type} (g : DiGraph P) (toIdx : ℕ) :
    ℕ → ℕ → List ℕ → Bool × List ℕ
  | 0, _, path1 => (false, path1)
  | fuel + 1, cur, path1 =>
    match g.parent? cur with
    | none => (false, path1)
    | some p =>
      if p = toIdx then (true, path1 ++ [toIdx])
      else findPathLoop1 g toIdx fuel p (path1 ++ [p])

/-- Second loop of `BufferTree::find_path`: climb the parent chain from
`to`; on meeting a node of `path1`, truncate `path1` just after it
(`drain(pos + 1..)`) and stop. -/
def findPathLoop2 {P : Type} (g : DiGraph P) (path1 : List ℕ) :
    ℕ → ℕ → List ℕ → List ℕ × List ℕ
  | 0, _, path2 => (path1, path2)
  | fuel + 1, cur, path2 =>
    match g.parent? cur with
    | none => (path1, path2)
    | some p =>
      if p ∈ path1 then (path1.take (path1.indexOf p + 1), path2)
      else findPathLoop2 g path1 fuel p (path2 ++ [p])

/-- `BufferTree::find_path` on resolved node ids (the graph part; the
name-to-id resolution is in `BufferTree.find_path`). -/
def findPathIds {P : Type} (g : DiGraph P) (fromIdx toIdx : ℕ) : List ℕ :=
  let r1 := findPathLoop1 g toIdx (g.nodes.length + 1) fromIdx [fromIdx]
  if r1.1 then r1.2
  else
    let r2 := findPathLoop2 g r1.2 (g.nodes.length + 1) toIdx [toIdx]
    r2.1 ++ r2.2.reverse

/-- `BufferTree::find_path`.  Both exits of the source function return
`Some`; the index may grow because `find_path` resolves names through
`NodeIndex::index`. -/
def BufferTree.find_path {P : Type} (b : BufferTree P) (source target : String) :
    Option (List ℕ) × BufferTree P :=
  let fi := b.index.index source
  let ti := fi.2.index target
  (some (findPathIds b.graph fi.1 ti.1), ⟨b.graph, ti.2, b.max_transform_history⟩)

/-- Result of a buffer lookup: the returned `StampedIsometry`, a `TfError`,
or a panic (`unwrap()` failure) in the source. -/
inductive LookupResult (P : Type) where
  | ok : StampedPose P → LookupResult P
  | err : TfError → LookupResult P
  | panic : LookupResult P
deriving DecidableEq, Repr

/-- The fold of `lookup_latest_transform` over `path.windows(2)`:
`isometry *= edge.history.back().unwrap().isometry` along forward edges and
the inverse along reversed edges. -/
def composeLatestGo {P : Type} [Group P] (g : DiGraph P) :
    List ℕ → P → Option P
  | [], acc => some acc
  | [_], acc => some acc
  | a :: b :: rest, acc =>
    if g.containsEdge a b then
      match g.edgeWeight a b with
      | none => none
      | some w =>
        match w.history.getLast? with
        | none => none
        | some sp => composeLatestGo g (b :: rest) (acc * sp.pose)
    else
      match g.edgeWeight b a with
      | none => none
      | some w =>
        match w.history.getLast? with
        | none => none
        | some sp => composeLatestGo g (b :: rest) (acc * sp.pose⁻¹)

/-- `BufferTree::lookup_latest_transform`. -/
def BufferTree.lookup_latest_transform {P : Type} [Group P] (b : BufferTree P)
    (source target : String) : LookupResult P × BufferTree P :=
  if !(b.index.contains source) || !(b.index.contains target) then
    (LookupResult.err TfError.CouldNotFindTransform, b)
  else
    let fp := b.find_path source target
    match fp.1 with
    | none => (LookupResult.panic, fp.2)
    | some path =>
      match composeLatestGo b.graph path 1 with
      | none => (LookupResult.panic, fp.2)
      | some iso => (LookupResult.ok ⟨iso, 0⟩, fp.2)

/-- The fold of `lookup_transform` over `path.windows(2)` with per-edge
interpolation at `time`; `?` propagation of `TfError` is explicit. -/
def composeAtGo {P : Type} [Group P] (lerpSlerp : P → P → ℚ → P) (g : DiGraph P)
    (time : ℚ) : List ℕ → P → InterpResult P
  | [], acc => InterpResult.ok acc
  | [_], acc => InterpResult.ok acc
  | a :: b :: rest, acc =>
    if g.containsEdge a b then
      match g.edgeWeight a b with
      | none => InterpResult.panic
      | some w =>
        match w.interpolate lerpSlerp time with
        | InterpResult.ok p => composeAtGo lerpSlerp g time (b :: rest) (acc * p)
        | InterpResult.err e => InterpResult.err e
        | InterpResult.panic => InterpResult.panic
    else
      match g.edgeWeight b a with
      | none => InterpResult.panic
      | some w =>
        match w.interpolate lerpSlerp time with
        | InterpResult.ok p => composeAtGo lerpSlerp g time (b :: rest) (acc * p⁻¹)
        | InterpResult.err e => InterpResult.err e
        | InterpResult.panic => InterpResult.panic

/-- `BufferTree::lookup_transform`. -/
def BufferTree.lookup_transform {P : Type} [Group P] (lerpSlerp : P → P → ℚ → P)
    (b : BufferTree P) (source target : String) (time : ℚ) :
    LookupResult P × BufferTree P :=
  if !(b.index.contains source) || !(b.index.contains target) then
    (LookupResult.err TfError.CouldNotFindTransform, b)
  else
    let fp := b.find_path source target
    match fp.1 with
    | none => (LookupResult.panic, fp.2)
    | some path =>
      match composeAtGo lerpSlerp b.graph time path 1 with
      | InterpResult.ok iso => (LookupResult.ok ⟨iso, time⟩, fp.2)
      | InterpResult.err e => (LookupResult.err e, fp.2)
      | InterpResult.panic => (LookupResult.panic, fp.2)

/-- The directed edge keys of the graph, in insertion order. -/
def DiGraph.edgeKeys {P : Type} (g : DiGraph P) : List (ℕ × ℕ) :=
  g.edges.map Prod.fst

/-- One step of an undirected walk: `k` is a stored directed edge joining
`a` and `b` in either direction. -/
def undirStep {P : Type} (g : DiGraph P) (a b : ℕ) (k : ℕ × ℕ) : Prop :=
  (k = (a, b) ∨ k = (b, a)) ∧ k ∈ g.edgeKeys

/-- An undirected walk through the graph, recording the visited vertices and
the (directed) edge keys used. -/
inductive UndirWalk {P : Type} (g : DiGraph P) : List ℕ → List (ℕ × ℕ) → Prop
  | single (v : ℕ) : UndirWalk g [v] []
  | cons {a b : ℕ} {vs : List ℕ} {k : ℕ × ℕ} {ks : List (ℕ × ℕ)} :
      undirStep g a b k → UndirWalk g (b :: vs) ks → UndirWalk g (a :: b :: vs) (k :: ks)

/-- An undirected cycle: a closed undirected walk using at least one edge
and never reusing an edge.  This is the standard notion of a cycle in the
undirected multigraph underlying the directed graph: it covers self-loops,
anti-parallel edge pairs, and longer cycles, and excludes walks that merely
backtrack over the same edge. -/
def IsUndirCycle {P : Type} (g : DiGraph P) (vs : List ℕ) (ks : List (ℕ × ℕ)) : Prop :=
  UndirWalk g vs ks ∧ ks ≠ [] ∧ ks.Nodup ∧ vs.head? = vs.getLast?

lemma UndirWalk.length_eq {P : Type} {g : DiGraph P} {vs : List ℕ}
    {ks : List (ℕ × ℕ)} (h : UndirWalk g vs ks) : vs.length = ks.length + 1 := by
  induction h with
  | single v => rfl
  | cons hstep htail ih => simpa using ih

lemma UndirWalk.key_mem {P : Type} {g : DiGraph P} {vs : List ℕ}
    {ks : List (ℕ × ℕ)} (h : UndirWalk g vs ks) :
    ∀ k ∈ ks, k ∈ g.edgeKeys ∧ k.1 ∈ vs ∧ k.2 ∈ vs := by
  induction h with
  | single v => intro k hk; exact absurd hk (List.not_mem_nil k)
  | cons hstep htail ih =>
    intro k hk
    rcases List.mem_cons.mp hk with hk | hk
    · subst hk
      obtain ⟨hdir, hmem⟩ := hstep
      rcases hdir with hd | hd <;> subst hd <;>
        exact ⟨hmem, by simp, by simp⟩
    · obtain ⟨h1, h2, h3⟩ := ih k hk
      exact ⟨h1, List.mem_cons_of_mem _ h2, List.mem_cons_of_mem _ h3⟩

lemma edgeKeys_mem_entry {P : Type} {g : DiGraph P} {k : ℕ × ℕ}
    (h : k ∈ g.edgeKeys) : ∃ w, (k, w) ∈ g.edges := by
  rcases List.mem_map.mp h with ⟨e, he, hk⟩
  exact ⟨e.2, by rwa [show (k, e.2) = e by rw [← hk]]⟩

/-- Two distinct stored edges with the same head would make the head's
incoming count at least 2. -/
lemma head_inj_of_incoming_le_one {P : Type} (g : DiGraph P)
    (hinc : ∀ n, g.incomingCount n ≤ 1) {k1 k2 : ℕ × ℕ}
    (h1 : k1 ∈ g.edgeKeys) (h2 : k2 ∈ g.edgeKeys) (hhead : k1.2 = k2.2) :
    k1 = k2 := by
  by_contra hne
  obtain ⟨w1, hw1⟩ := edgeKeys_mem_entry h1
  obtain ⟨w2, hw2⟩ := edgeKeys_mem_entry h2
  have hm1 : (k1, w1) ∈ g.edges.filter (fun e => e.1.2 == k1.2) := by
    rw [List.mem_filter]
    exact ⟨hw1, by simp⟩
  have hm2 : (k2, w2) ∈ g.edges.filter (fun e => e.1.2 == k1.2) := by
    rw [List.mem_filter]
    exact ⟨hw2, by simp [hhead]⟩
  have hne2 : (k1, w1) ≠ (k2, w2) := by
    intro hcontra
    exact hne (congrArg Prod.fst hcontra)
  have hlen : 2 ≤ (g.edges.filter (fun e => e.1.2 == k1.2)).length := by
    rcases List.mem_iff_append.mp hm1 with ⟨l1, l2, hsplit⟩
    have hm2' : (k2, w2) ∈ l1 ++ (k1, w1) :: l2 := by rwa [← hsplit]
    rcases List.mem_append.mp hm2' with hx | hx
    · rcases List.mem_iff_append.mp hx with ⟨m1, m2, hm⟩
      rw [hsplit, hm]
      simp
      omega
    · rcases List.mem_cons.mp hx with hx2 | hx2
      · exact absurd hx2.symm hne2
      · rcases List.mem_iff_append.mp hx2 with ⟨m1, m2, hm⟩
        rw [hsplit, hm]
        simp
        omega
  have := hinc k1.2
  rw [DiGraph.incomingCount] at this
  omega

/-- If an edge with head `v` is stored and every incoming count is at most
one, the parent pointer of `v` is that edge's tail. -/
lemma parent_eq_of_key {P : Type} (g : DiGraph P)
    (hinc : ∀ n, g.incomingCount n ≤ 1) {k : ℕ × ℕ}
    (hk : k ∈ g.edgeKeys) : g.parent? k.2 = some k.1 := by
  obtain ⟨w, hw⟩ := edgeKeys_mem_entry hk
  rcases hfind : g.edges.find? (fun e => e.1.2 == k.2) with _ | e
  · have := List.find?_eq_none.mp hfind (k, w) hw
    simp at this
  · have hmem : e ∈ g.edges := List.mem_of_find?_eq_some hfind
    have hpred : e.1.2 = k.2 := by
      have := List.find?_some hfind
      simpa using this
    have hkey : e.1 ∈ g.edgeKeys := List.mem_map.mpr ⟨e, hmem, rfl⟩
    have : e.1 = k := head_inj_of_incoming_le_one g hinc hkey hk hpred
    rw [DiGraph.parent?, hfind]
    simp [this]

/-- If every member of `S` has its parent inside `S`, parent chains starting
in `S` consume any amount of fuel. -/
lemma chainSteps_eq_fuel {P : Type} (g : DiGraph P) (S : List ℕ)
    (hS : ∀ v ∈ S, ∃ p, g.parent? v = some p ∧ p ∈ S) :
    ∀ (fuel : ℕ) (v : ℕ), v ∈ S → chainSteps g fuel v = fuel := by
  intro fuel
  induction fuel with
  | zero => intro v _; rfl
  | succ n ih =>
    intro v hv
    obtain ⟨p, hpar, hp⟩ := hS v hv
    simp only [chainSteps, hpar]
    rw [ih p hp]
    omega

/-- In a graph where every node has at most one incoming edge, every vertex
of an undirected cycle has a parent which again lies on the cycle. -/
lemma cycle_parent_closed {P : Type} (g : DiGraph P)
    (hinc : ∀ n, g.incomingCount n ≤ 1) {vs : List ℕ} {ks : List (ℕ × ℕ)}
    (hcyc : IsUndirCycle g vs ks) :
    ∀ v ∈ vs, ∃ p, g.parent? v = some p ∧ p ∈ vs := by
  obtain ⟨hwalk, hne, hnodup, hclosed⟩ := hcyc
  have hkm := hwalk.key_mem
  have hvslen : vs.length = ks.length + 1 := hwalk.length_eq
  have hheads : (ks.map Prod.snd).Nodup := by
    refine List.Nodup.map_on ?_ hnodup
    intro x hx y hy hxy
    exact head_inj_of_incoming_le_one g hinc (hkm x hx).1 (hkm y hy).1 hxy
  have hsub1 : (ks.map Prod.snd).toFinset ⊆ vs.toFinset := by
    intro v hv
    rw [List.mem_toFinset] at hv ⊢
    rcases List.mem_map.mp hv with ⟨k, hk, hkv⟩
    rw [← hkv]
    exact (hkm k hk).2.2
  have hcard1 : (ks.map Prod.snd).toFinset.card = ks.length := by
    rw [List.toFinset_card_of_nodup hheads, List.length_map]
  have hcard2 : vs.toFinset.card ≤ ks.length := by
    have hvne : vs ≠ [] := by
      intro hcontra; rw [hcontra] at hvslen; simp at hvslen
    have hsplit : vs.dropLast ++ [vs.getLast hvne] = vs := List.dropLast_concat_getLast hvne
    have hlast : vs.getLast hvne ∈ vs.dropLast := by
      rcases vs with _ | ⟨a, rest⟩
      · exact absurd rfl hvne
      · rcases rest with _ | ⟨b, t⟩
        · have hks0 : ks.length = 0 := by simpa using hvslen.symm
          exact absurd (List.length_eq_zero.mp hks0) hne
        · have hga : (a :: b :: t).getLast hvne = a := by
            have h1 : (a :: b :: t).head? = some a := rfl
            have h2 : (a :: b :: t).getLast? = some ((a :: b :: t).getLast hvne) :=
              List.getLast?_eq_getLast _ hvne
            rw [h1, h2] at hclosed
            exact (Option.some.inj hclosed).symm
          rw [hga]
          simp [List.dropLast]
    have htf : vs.toFinset = vs.dropLast.toFinset := by
      conv_lhs => rw [← hsplit]
      rw [List.toFinset_append]
      simp only [List.toFinset_cons, List.toFinset_nil]
      rw [Finset.union_comm]
      refine Finset.union_eq_right.mpr ?_
      intro x hx
      simp only [Finset.mem_insert, Finset.mem_singleton] at hx
      rcases hx with hx | hx
      · rw [hx]; exact List.mem_toFinset.mpr hlast
      · exact absurd hx (by simp)
    rw [htf]
    calc vs.dropLast.toFinset.card ≤ vs.dropLast.length := List.toFinset_card_le _
      _ = vs.length - 1 := List.length_dropLast _
      _ = ks.length := by omega
  have heq : vs.toFinset = (ks.map Prod.snd).toFinset :=
    (Finset.eq_of_subset_of_card_le hsub1 (by omega)).symm
  intro v hv
  have hv2 : v ∈ (ks.map Prod.snd).toFinset := by
    rw [← heq]
    exact List.mem_toFinset.mpr hv
  rcases List.mem_map.mp (List.mem_toFinset.mp hv2) with ⟨k, hk, hkv⟩
  have hpar := parent_eq_of_key g hinc (hkm k hk).1
  rw [hkv] at hpar
  exact ⟨k.1, hpar, (hkm k hk).2.1⟩

/-- Completeness of the cyclicity check on forest-shaped inputs: if every
node has at most one incoming edge, edge endpoints are registered nodes, and
an undirected cycle exists, then `is_cyclic_undirected` reports it. -/
lemma isCyclicUndirected_eq_true_of_cycle {P : Type} (g : DiGraph P)
    (hend : ∀ k ∈ g.edgeKeys, k.2 ∈ g.nodes)
    (hinc : ∀ n, g.incomingCount n ≤ 1)
    {vs : List ℕ} {ks : List (ℕ × ℕ)} (hcyc : IsUndirCycle g vs ks) :
    g.isCyclicUndirected = true := by
  have hpc := cycle_parent_closed g hinc hcyc
  obtain ⟨hwalk, hne, hnodup, hclosed⟩ := hcyc
  have hvslen := hwalk.length_eq
  have hvne : vs ≠ [] := by
    intro hcontra; rw [hcontra] at hvslen; simp at hvslen
  obtain ⟨v0, hv0⟩ := List.exists_mem_of_ne_nil vs hvne
  -- v0 is a head of some cycle key, hence a registered node
  obtain ⟨p, hpar, hp⟩ := hpc v0 hv0
  have hv0node : v0 ∈ g.nodes := by
    rcases hfind : g.edges.find? (fun e => e.1.2 == v0) with _ | e
    · rw [DiGraph.parent?, hfind] at hpar; simp at hpar
    · have hmem : e ∈ g.edges := List.mem_of_find?_eq_some hfind
      have hpred : e.1.2 = v0 := by simpa using List.find?_some hfind
      have : e.1 ∈ g.edgeKeys := List.mem_map.mpr ⟨e, hmem, rfl⟩
      have := hend e.1 this
      rwa [hpred] at this
  rw [DiGraph.isCyclicUndirected, List.any_eq_true]
  refine ⟨v0, hv0node, ?_⟩
  rw [chainSteps_eq_fuel g vs hpc (g.nodes.length + 1) v0 hv0]
  simp

/-- Structural invariant of the buffer graph maintained by `update`. -/
structure GraphInv {P : Type} (g : DiGraph P) : Prop where
  nodes_nodup : g.nodes.Nodup
  keys_nodup : g.edgeKeys.Nodup
  tail_mem : ∀ k ∈ g.edgeKeys, k.1 ∈ g.nodes
  head_mem : ∀ k ∈ g.edgeKeys, k.2 ∈ g.nodes
  incoming_le : ∀ n, g.incomingCount n ≤ 1
  acyclic : ∀ vs ks, ¬ IsUndirCycle g vs ks
  incident : ∀ n ∈ g.nodes, ∃ k ∈ g.edgeKeys, k.1 = n ∨ k.2 = n

/-- Buffer states reachable through the public mutating operations
(`update`, and the index growth of a direct `find_path`). -/
inductive Reachable (P : Type) (maxHistory : ℕ) : BufferTree P → Prop
  | init : Reachable P maxHistory (BufferTree.new P maxHistory)
  | step {b : BufferTree P} (source target : String) (sp : StampedPose P)
      (kind : TransformType) : Reachable P maxHistory b →
      Reachable P maxHistory (b.update source target sp kind).2
  | touch {b : BufferTree P} (source target : String) : Reachable P maxHistory b →
      Reachable P maxHistory (b.find_path source target).2

lemma incomingCount_eq_keys {P : Type} (g : DiGraph P) (n : ℕ) :
    g.incomingCount n = (g.edgeKeys.filter (fun k => k.2 == n)).length := by
  rw [DiGraph.incomingCount, DiGraph.edgeKeys, List.filter_map, List.length_map]
  rfl

lemma outgoingCount_eq_keys {P : Type} (g : DiGraph P) (n : ℕ) :
    g.outgoingCount n = (g.edgeKeys.filter (fun k => k.1 == n)).length := by
  rw [DiGraph.outgoingCount, DiGraph.edgeKeys, List.filter_map, List.length_map]
  rfl

lemma parent_eq_keys {P : Type} (g : DiGraph P) (n : ℕ) :
    g.parent? n = (g.edgeKeys.find? (fun k => k.2 == n)).map Prod.fst := by
  rw [DiGraph.parent?, DiGraph.edgeKeys, List.find?_map]
  rcases hfind : g.edges.find? (fun e => e.1.2 == n) with _ | e
  · rw [show (fun k : ℕ × ℕ => k.2 == n) ∘ Prod.fst = (fun e => e.1.2 == n) from rfl]
    rw [hfind]
    rfl
  · rw [show (fun k : ℕ × ℕ => k.2 == n) ∘ Prod.fst = (fun e => e.1.2 == n) from rfl]
    rw [hfind]
    rfl

lemma containsEdge_iff_keys {P : Type} (g : DiGraph P) (a b : ℕ) :
    g.containsEdge a b = true ↔ (a, b) ∈ g.edgeKeys := by
  rw [DiGraph.containsEdge, List.any_eq_true, DiGraph.edgeKeys]
  constructor
  · rintro ⟨e, he, hpred⟩
    have : e.1 = (a, b) := by simpa using hpred
    exact List.mem_map.mpr ⟨e, he, this⟩
  · intro hmem
    rcases List.mem_map.mp hmem with ⟨e, he, hk⟩
    exact ⟨e, he, by simp [hk]⟩

/-- `UndirWalk` only depends on the edge keys. -/
lemma undirWalk_congr {P Q : Type} {g : DiGraph P} {g' : DiGraph Q}
    (hkeys : g'.edgeKeys = g.edgeKeys) {vs : List ℕ} {ks : List (ℕ × ℕ)}
    (h : UndirWalk g vs ks) : UndirWalk g' vs ks := by
  induction h with
  | single v => exact UndirWalk.single v
  | cons hstep htail ih =>
    refine UndirWalk.cons ⟨hstep.1, ?_⟩ ih
    rw [hkeys]
    exact hstep.2

lemma isUndirCycle_congr {P Q : Type} {g : DiGraph P} {g' : DiGraph Q}
    (hkeys : g'.edgeKeys = g.edgeKeys) {vs : List ℕ} {ks : List (ℕ × ℕ)}
    (h : IsUndirCycle g vs ks) : IsUndirCycle g' vs ks :=
  ⟨undirWalk_congr hkeys h.1, h.2.1, h.2.2.1, h.2.2.2⟩

/-- `GraphInv` transfers along equal node lists and edge keys. -/
lemma graphInv_congr {P Q : Type} {g : DiGraph P} {g' : DiGraph Q}
    (hnodes : g'.nodes = g.nodes) (hkeys : g'.edgeKeys = g.edgeKeys)
    (h : GraphInv g) : GraphInv g' := by
  refine ⟨?_, ?_, ?_, ?_, ?_, ?_, ?_⟩
  · rw [hnodes]; exact h.nodes_nodup
  · rw [hkeys]; exact h.keys_nodup
  · rw [hnodes, hkeys]; exact h.tail_mem
  · rw [hnodes, hkeys]; exact h.head_mem
  · intro n; rw [incomingCount_eq_keys, hkeys, ← incomingCount_eq_keys]
    exact h.incoming_le n
  · intro vs ks hcyc
    exact h.acyclic vs ks (isUndirCycle_congr hkeys.symm hcyc)
  · rw [hnodes, hkeys]; exact h.incident

lemma updateEdge_nodes {P : Type} (g : DiGraph P) (a b : ℕ) (sp : StampedPose P) :
    (g.updateEdge a b sp).nodes = g.nodes := rfl

lemma updateEdge_edgeKeys {P : Type} (g : DiGraph P) (a b : ℕ) (sp : StampedPose P) :
    (g.updateEdge a b sp).edgeKeys = g.edgeKeys := by
  rw [DiGraph.updateEdge, DiGraph.edgeKeys, DiGraph.edgeKeys, List.map_map]
  congr 1
  funext e
  by_cases he : e.1 = (a, b) <;> simp [he, Function.comp]

lemma addNode_edges {P : Type} (g : DiGraph P) (n : ℕ) :
    (g.addNode n).edges = g.edges := by
  rw [DiGraph.addNode]
  by_cases h : g.containsNode n <;> simp [h]

lemma addNode_mem {P : Type} (g : DiGraph P) (n m : ℕ) :
    m ∈ (g.addNode n).nodes ↔ m ∈ g.nodes ∨ m = n := by
  rw [DiGraph.addNode]
  by_cases h : g.containsNode n
  · simp only [if_pos h]
    constructor
    · exact Or.inl
    · rintro (hm | hm)
      · exact hm
      · subst hm
        rw [DiGraph.containsNode, List.contains_eq_any_beq, List.any_eq_true] at h
        rcases h with ⟨x, hx, hbeq⟩
        have hxm : m = x := by simpa using hbeq
        rwa [hxm]
  · simp only [if_neg h, List.mem_append, List.mem_singleton]

lemma addNode_nodup {P : Type} (g : DiGraph P) (n : ℕ) (h : g.nodes.Nodup) :
    (g.addNode n).nodes.Nodup := by
  rw [DiGraph.addNode]
  by_cases hc : g.containsNode n
  · simpa [hc]
  · simp only [if_neg hc]
    rw [List.nodup_append]
    refine ⟨h, List.nodup_singleton n, ?_⟩
    intro a ha hb
    rw [List.mem_singleton] at hb
    subst hb
    rw [DiGraph.containsNode] at hc
    simp only [List.contains_eq_any_beq, List.any_eq_true] at hc
    exact hc ⟨a, ha, by simp⟩

lemma containsNode_iff_mem {P : Type} (g : DiGraph P) (n : ℕ) :
    g.containsNode n = true ↔ n ∈ g.nodes := by
  rw [DiGraph.containsNode, List.contains_eq_any_beq, List.any_eq_true]
  constructor
  · rintro ⟨x, hx, hbeq⟩
    have : n = x := by simpa using hbeq
    rwa [this]
  · intro h
    exact ⟨n, h, by simp⟩

lemma addNode_of_mem {P : Type} (g : DiGraph P) {n : ℕ} (h : n ∈ g.nodes) :
    g.addNode n = g := by
  rw [DiGraph.addNode, if_pos ((containsNode_iff_mem g n).mpr h)]

lemma addNode_of_not_mem {P : Type} (g : DiGraph P) {n : ℕ} (h : n ∉ g.nodes) :
    (g.addNode n).nodes = g.nodes ++ [n] := by
  rw [DiGraph.addNode, if_neg]
  intro hc
  exact h ((containsNode_iff_mem g n).mp hc)

lemma addEdge_nodes {P : Type} (g : DiGraph P) (a b : ℕ) (w : TransformHistory P) :
    (g.addEdge a b w).nodes = ((g.addNode a).addNode b).nodes := rfl

lemma addEdge_edges {P : Type} (g : DiGraph P) (a b : ℕ) (w : TransformHistory P) :
    (g.addEdge a b w).edges = g.edges ++ [((a, b), w)] := by
  rw [DiGraph.addEdge]
  simp only [addNode_edges]

lemma addEdge_edgeKeys {P : Type} (g : DiGraph P) (a b : ℕ) (w : TransformHistory P) :
    (g.addEdge a b w).edgeKeys = g.edgeKeys ++ [(a, b)] := by
  rw [DiGraph.edgeKeys, addEdge_edges, List.map_append, DiGraph.edgeKeys]
  rfl

lemma incoming_pos_of_key {P : Type} (g : DiGraph P) {k : ℕ × ℕ}
    (hk : k ∈ g.edgeKeys) : 1 ≤ g.incomingCount k.2 := by
  rw [incomingCount_eq_keys]
  have : k ∈ g.edgeKeys.filter (fun x => x.2 == k.2) :=
    List.mem_filter.mpr ⟨hk, by simp⟩
  exact List.length_pos.mpr (List.ne_nil_of_mem this)

lemma outgoing_pos_of_key {P : Type} (g : DiGraph P) {k : ℕ × ℕ}
    (hk : k ∈ g.edgeKeys) : 1 ≤ g.outgoingCount k.1 := by
  rw [outgoingCount_eq_keys]
  have : k ∈ g.edgeKeys.filter (fun x => x.1 == k.1) :=
    List.mem_filter.mpr ⟨hk, by simp⟩
  exact List.length_pos.mpr (List.ne_nil_of_mem this)

lemma counts_zero_of_not_node {P : Type} {g : DiGraph P} (hInv : GraphInv g) {n : ℕ}
    (h : n ∉ g.nodes) : g.incomingCount n = 0 ∧ g.outgoingCount n = 0 := by
  constructor
  · rw [incomingCount_eq_keys, List.length_eq_zero, List.filter_eq_nil]
    intro k hk hbeq
    have : k.2 = n := by simpa using hbeq
    exact h (this ▸ hInv.head_mem k hk)
  · rw [outgoingCount_eq_keys, List.length_eq_zero, List.filter_eq_nil]
    intro k hk hbeq
    have : k.1 = n := by simpa using hbeq
    exact h (this ▸ hInv.tail_mem k hk)

lemma filter_ne_of_not_mem {n : ℕ} {l : List ℕ} (h : n ∉ l) :
    l.filter (fun m => !(m == n)) = l := by
  rw [List.filter_eq_self]
  intro a ha
  simp only [Bool.not_eq_true', beq_eq_false_iff_ne]
  intro hbeq
  exact h (hbeq ▸ ha)

lemma removeNode_edges_of_untouched {P : Type} {g : DiGraph P} {n : ℕ}
    (h : ∀ k ∈ g.edgeKeys, k.1 ≠ n ∧ k.2 ≠ n) :
    (g.removeNode n).edges = g.edges := by
  rw [DiGraph.removeNode]
  simp only
  rw [List.filter_eq_self]
  intro e he
  have hk : e.1 ∈ g.edgeKeys := List.mem_map.mpr ⟨e, he, rfl⟩
  obtain ⟨h1, h2⟩ := h e.1 hk
  simp [h1, h2]

lemma not_node_keys_untouched {P : Type} {g : DiGraph P} (hInv : GraphInv g) {n : ℕ}
    (h : n ∉ g.nodes) : ∀ k ∈ g.edgeKeys, k.1 ≠ n ∧ k.2 ≠ n := by
  intro k hk
  constructor
  · intro hc; exact h (hc ▸ hInv.tail_mem k hk)
  · intro hc; exact h (hc ▸ hInv.head_mem k hk)

lemma DiGraph.ext' {P : Type} {g g' : DiGraph P} (hn : g.nodes = g'.nodes)
    (he : g.edges = g'.edges) : g = g' := by
  cases g; cases g'
  simp only at hn he
  rw [hn, he]

lemma addEdge_of_mem {P : Type} (g : DiGraph P) {a b : ℕ} (ha : a ∈ g.nodes)
    (hb : b ∈ g.nodes) (w : TransformHistory P) :
    g.addEdge a b w = ⟨g.nodes, g.edges ++ [((a, b), w)]⟩ := by
  rw [DiGraph.addEdge, addNode_of_mem _ ha, addNode_of_mem _ hb]

lemma filter_key_ne {P : Type} {g : DiGraph P} {k : ℕ × ℕ} (h : k ∉ g.edgeKeys) :
    g.edges.filter (fun e => !(e.1 == k)) = g.edges := by
  rw [List.filter_eq_self]
  intro e he
  have hne : e.1 ≠ k := by
    intro hc
    exact h (hc ▸ List.mem_map.mpr ⟨e, he, rfl⟩)
  simp [hne]

lemma counts_zero_of_untouched {P : Type} {g : DiGraph P} {n : ℕ}
    (h : ∀ k ∈ g.edgeKeys, k.1 ≠ n ∧ k.2 ≠ n) :
    g.incomingCount n = 0 ∧ g.outgoingCount n = 0 := by
  constructor
  · rw [incomingCount_eq_keys, List.length_eq_zero, List.filter_eq_nil]
    intro k hk hbeq
    exact (h k hk).2 (by simpa using hbeq)
  · rw [outgoingCount_eq_keys, List.length_eq_zero, List.filter_eq_nil]
    intro k hk hbeq
    exact (h k hk).1 (by simpa using hbeq)

lemma skip_remove_of_incident {P : Type} (g : DiGraph P) (n : ℕ)
    (h : ∃ k ∈ g.edgeKeys, k.1 = n ∨ k.2 = n) :
    (if g.incomingCount n < 1 ∧ g.outgoingCount n < 1 then g.removeNode n else g) = g := by
  rw [if_neg]
  rintro ⟨hin, hout⟩
  obtain ⟨k, hk, hk2⟩ := h
  rcases hk2 with hk2 | hk2
  · have := outgoing_pos_of_key g hk
    rw [hk2] at this
    omega
  · have := incoming_pos_of_key g hk
    rw [hk2] at this
    omega

lemma do_remove_of_untouched {P : Type} (g : DiGraph P) (n : ℕ)
    (h : ∀ k ∈ g.edgeKeys, k.1 ≠ n ∧ k.2 ≠ n) :
    (if g.incomingCount n < 1 ∧ g.outgoingCount n < 1 then g.removeNode n else g) =
      ⟨g.nodes.filter (fun m => !(m == n)), g.edges⟩ := by
  obtain ⟨h1, h2⟩ := counts_zero_of_untouched h
  rw [if_pos (by omega)]
  exact DiGraph.ext' rfl (removeNode_edges_of_untouched h)

/-- Rollback fidelity for the graph: when the provisional edge of a failed
`update` is removed and freshly-added incident-free endpoints are removed,
the graph is exactly the pre-call graph. -/
lemma rollback_restores {P : Type} {g : DiGraph P} (hInv : GraphInv g) (s t : ℕ)
    (w : TransformHistory P)
    (hno : ((g.addNode s).addNode t).containsEdge s t = false) :
    rollbackGraph (((g.addNode s).addNode t).addEdge s t w) s t = g := by
  rw [rollbackGraph]
  have hg1edges : ((g.addNode s).addNode t).edges = g.edges := by
    rw [addNode_edges, addNode_edges]
  have hg1keys : ((g.addNode s).addNode t).edgeKeys = g.edgeKeys := by
    rw [DiGraph.edgeKeys, hg1edges, DiGraph.edgeKeys]
  have hkey : (s, t) ∉ g.edgeKeys := by
    intro hmem
    have := (containsEdge_iff_keys ((g.addNode s).addNode t) s t).mpr (by
      rw [hg1keys]; exact hmem)
    rw [this] at hno
    exact Bool.noConfusion hno
  have hsing1 : s ∈ ((g.addNode s).addNode t).nodes := by
    rw [addNode_mem]
    exact Or.inl ((addNode_mem g s s).mpr (Or.inr rfl))
  have hting1 : t ∈ ((g.addNode s).addNode t).nodes :=
    (addNode_mem _ t t).mpr (Or.inr rfl)
  rw [addEdge_of_mem _ hsing1 hting1]
  rw [DiGraph.removeEdge]
  simp only [List.filter_append, hg1edges]
  rw [filter_key_ne hkey]
  have hsingleton : List.filter (fun e => !(e.1 == (s, t)))
      [((s, t), w)] = [] := by simp
  rw [hsingleton, List.append_nil]
  -- The intermediate graph is now ⟨g1.nodes, g.edges⟩.
  by_cases hsg : s ∈ g.nodes
  · have hg1n : ((g.addNode s).addNode t).nodes = (g.addNode t).nodes := by
      rw [addNode_of_mem g hsg]
    by_cases htg : t ∈ g.nodes
    · -- both nodes pre-existing: no removal happens
      have hg1n' : ((g.addNode s).addNode t).nodes = g.nodes := by
        rw [hg1n, addNode_of_mem g htg]
      rw [hg1n']
      have hmid : (⟨g.nodes, g.edges⟩ : DiGraph P) = g := DiGraph.ext' rfl rfl
      rw [hmid]
      rw [skip_remove_of_incident g t (by
        obtain ⟨k, hk, hor⟩ := hInv.incident t htg
        exact ⟨k, hk, hor⟩)]
      rw [skip_remove_of_incident g s (by
        obtain ⟨k, hk, hor⟩ := hInv.incident s hsg
        exact ⟨k, hk, hor⟩)]
    · -- t freshly added: it is removed again
      have hg1n' : ((g.addNode s).addNode t).nodes = g.nodes ++ [t] := by
        rw [hg1n, addNode_of_not_mem g htg]
      rw [hg1n']
      have huntouched : ∀ k ∈ (⟨g.nodes ++ [t], g.edges⟩ : DiGraph P).edgeKeys,
          k.1 ≠ t ∧ k.2 ≠ t := not_node_keys_untouched hInv htg
      rw [do_remove_of_untouched _ t huntouched]
      simp only [List.filter_append]
      rw [filter_ne_of_not_mem htg]
      have : List.filter (fun m => !(m == t)) [t] = [] := by simp
      rw [this, List.append_nil]
      have hmid : (⟨g.nodes, g.edges⟩ : DiGraph P) = g := DiGraph.ext' rfl rfl
      rw [hmid]
      rw [skip_remove_of_incident g s (by
        obtain ⟨k, hk, hor⟩ := hInv.incident s hsg
        exact ⟨k, hk, hor⟩)]
  · have hgs : (g.addNode s).nodes = g.nodes ++ [s] := addNode_of_not_mem g hsg
    by_cases hts : t ∈ (g.addNode s).nodes
    · -- t already present after adding s (t old, or t = s)
      have hg1n : ((g.addNode s).addNode t).nodes = g.nodes ++ [s] := by
        rw [addNode_of_mem _ hts, hgs]
      rw [hg1n]
      by_cases htg : t ∈ g.nodes
      · -- t is an old node: skip its removal, then remove fresh s
        rw [skip_remove_of_incident _ t (by
          obtain ⟨k, hk, hor⟩ := hInv.incident t htg
          exact ⟨k, hk, hor⟩)]
        have hu1 : ∀ k ∈ (⟨g.nodes ++ [s], g.edges⟩ : DiGraph P).edgeKeys,
            k.1 ≠ s ∧ k.2 ≠ s := not_node_keys_untouched hInv hsg
        rw [do_remove_of_untouched _ s hu1]
        simp only [List.filter_append]
        rw [filter_ne_of_not_mem hsg]
        have : List.filter (fun m => !(m == s)) [s] = [] := by simp
        rw [this, List.append_nil]
      · -- t = s, both fresh: t's removal already removes s; the second
        -- removal is a no-op on the edge list and node list
        have hts' : t = s := by
          rw [hgs] at hts
          rcases List.mem_append.mp hts with h | h
          · exact absurd h htg
          · simpa using h
        subst hts'
        have hu2 : ∀ k ∈ (⟨g.nodes ++ [t], g.edges⟩ : DiGraph P).edgeKeys,
            k.1 ≠ t ∧ k.2 ≠ t := not_node_keys_untouched hInv hsg
        rw [do_remove_of_untouched _ t hu2]
        simp only [List.filter_append]
        rw [filter_ne_of_not_mem hsg]
        have : List.filter (fun m => !(m == t)) [t] = [] := by simp
        rw [this, List.append_nil]
        have hu3 : ∀ k ∈ (⟨g.nodes, g.edges⟩ : DiGraph P).edgeKeys,
            k.1 ≠ t ∧ k.2 ≠ t := not_node_keys_untouched hInv hsg
        rw [do_remove_of_untouched _ t hu3]
        rw [filter_ne_of_not_mem hsg]
    · -- t fresh and distinct from s
      have hg1n : ((g.addNode s).addNode t).nodes = (g.nodes ++ [s]) ++ [t] := by
        rw [addNode_of_not_mem _ hts, hgs]
      have htg : t ∉ g.nodes := by
        intro hc
        exact hts (by rw [hgs]; exact List.mem_append.mpr (Or.inl hc))
      have hst : t ≠ s := by
        intro hc
        exact hts (by rw [hgs, hc]; exact List.mem_append.mpr (Or.inr (by simp)))
      rw [hg1n]
      have hu4 : ∀ k ∈ (⟨(g.nodes ++ [s]) ++ [t], g.edges⟩ : DiGraph P).edgeKeys,
          k.1 ≠ t ∧ k.2 ≠ t := not_node_keys_untouched hInv htg
      rw [do_remove_of_untouched _ t hu4]
      simp only [List.filter_append]
      rw [filter_ne_of_not_mem htg]
      have h1 : List.filter (fun m => !(m == t)) [s] = [s] := by simp [Ne.symm hst]
      have h2 : List.filter (fun m => !(m == t)) [t] = [] := by simp
      rw [h1, h2, List.append_nil]
      have hu5 : ∀ k ∈ (⟨g.nodes ++ [s], g.edges⟩ : DiGraph P).edgeKeys,
          k.1 ≠ s ∧ k.2 ≠ s := not_node_keys_untouched hInv hsg
      rw [do_remove_of_untouched _ s hu5]
      rw [List.filter_append, filter_ne_of_not_mem hsg]
      have h3 : List.filter (fun m => !(m == s)) [s] = [] := by simp
      rw [h3, List.append_nil]

lemma mem_nodes_addNode_of_mem {P : Type} {g : DiGraph P} {n m : ℕ}
    (h : n ∈ g.nodes) : n ∈ (g.addNode m).nodes :=
  (addNode_mem g m n).mpr (Or.inl h)

lemma incomingCount_addEdge {P : Type} (g : DiGraph P) (s t : ℕ)
    (w : TransformHistory P) (n : ℕ) :
    (g.addEdge s t w).incomingCount n =
      g.incomingCount n + (if t = n then 1 else 0) := by
  rw [incomingCount_eq_keys, incomingCount_eq_keys, addEdge_edgeKeys,
    List.filter_append, List.length_append]
  congr 1
  by_cases h : t = n
  · simp [h]
  · simp [h]

/-- The accepted fresh-edge branch of `update` preserves the invariant. -/
lemma GraphInv.accept_new {P : Type} {g : DiGraph P} (hInv : GraphInv g) {s t : ℕ}
    {w : TransformHistory P}
    (hno : (s, t) ∉ g.edgeKeys)
    (hchk : (((g.addNode s).addNode t).addEdge s t w).isCyclicUndirected = false)
    (hinc2 : ¬ 1 < (((g.addNode s).addNode t).addEdge s t w).incomingCount t) :
    GraphInv (((g.addNode s).addNode t).addEdge s t w) := by
  have hsing1 : s ∈ ((g.addNode s).addNode t).nodes :=
    mem_nodes_addNode_of_mem ((addNode_mem g s s).mpr (Or.inr rfl))
  have hting1 : t ∈ ((g.addNode s).addNode t).nodes :=
    (addNode_mem _ t t).mpr (Or.inr rfl)
  have hg1keys : ((g.addNode s).addNode t).edgeKeys = g.edgeKeys := by
    rw [DiGraph.edgeKeys, addNode_edges, addNode_edges, DiGraph.edgeKeys]
  have hkeys2 : (((g.addNode s).addNode t).addEdge s t w).edgeKeys =
      g.edgeKeys ++ [(s, t)] := by
    rw [addEdge_edgeKeys, hg1keys]
  have hnodes2 : (((g.addNode s).addNode t).addEdge s t w).nodes =
      ((g.addNode s).addNode t).nodes := by
    rw [addEdge_of_mem _ hsing1 hting1]
  have hmem2 : ∀ n, n ∈ (((g.addNode s).addNode t).addEdge s t w).nodes ↔
      (n ∈ g.nodes ∨ n = s ∨ n = t) := by
    intro n
    rw [hnodes2, addNode_mem, addNode_mem]
    tauto
  have hincle : ∀ n, (((g.addNode s).addNode t).addEdge s t w).incomingCount n ≤ 1 := by
    intro n
    by_cases hn : t = n
    · subst hn
      omega
    · rw [incomingCount_addEdge, if_neg hn]
      have h1 : ((g.addNode s).addNode t).incomingCount n = g.incomingCount n := by
        rw [DiGraph.incomingCount, addNode_edges, addNode_edges, DiGraph.incomingCount]
      rw [h1]
      have := hInv.incoming_le n
      omega
  refine ⟨?_, ?_, ?_, ?_, hincle, ?_, ?_⟩
  · rw [hnodes2]
    exact addNode_nodup _ t (addNode_nodup _ s hInv.nodes_nodup)
  · rw [hkeys2, List.nodup_append]
    refine ⟨hInv.keys_nodup, List.nodup_singleton _, ?_⟩
    intro k hk hk2
    rw [List.mem_singleton] at hk2
    subst hk2
    exact hno hk
  · intro k hk
    rw [hkeys2] at hk
    rcases List.mem_append.mp hk with hk | hk
    · rw [hmem2]
      exact Or.inl (hInv.tail_mem k hk)
    · rw [List.mem_singleton] at hk
      subst hk
      rw [hmem2]
      exact Or.inr (Or.inl rfl)
  · intro k hk
    rw [hkeys2] at hk
    rcases List.mem_append.mp hk with hk | hk
    · rw [hmem2]
      exact Or.inl (hInv.head_mem k hk)
    · rw [List.mem_singleton] at hk
      subst hk
      rw [hmem2]
      exact Or.inr (Or.inr rfl)
  · intro vs ks hcyc
    have := isCyclicUndirected_eq_true_of_cycle _ (by
      intro k hk
      rw [hkeys2] at hk
      rcases List.mem_append.mp hk with hk | hk
      · rw [hmem2]
        exact Or.inl (hInv.head_mem k hk)
      · rw [List.mem_singleton] at hk
        subst hk
        rw [hmem2]
        exact Or.inr (Or.inr rfl)) hincle hcyc
    rw [hchk] at this
    exact Bool.noConfusion this
  · intro n hn
    rw [hmem2] at hn
    rcases hn with hn | hn | hn
    · obtain ⟨k, hk, hor⟩ := hInv.incident n hn
      exact ⟨k, by rw [hkeys2]; exact List.mem_append.mpr (Or.inl hk), hor⟩
    · subst hn
      exact ⟨(n, t), by rw [hkeys2]; simp, Or.inl rfl⟩
    · subst hn
      exact ⟨(s, n), by rw [hkeys2]; simp, Or.inr rfl⟩

lemma g1_eq_of_edge_exists {P : Type} {b : DiGraph P} (hInv : GraphInv b) {s t : ℕ}
    (hedge : b.containsEdge s t = true) : (b.addNode s).addNode t = b := by
  have hk := (containsEdge_iff_keys b s t).mp hedge
  have hs : s ∈ b.nodes := hInv.tail_mem (s, t) hk
  have ht : t ∈ b.nodes := hInv.head_mem (s, t) hk
  rw [addNode_of_mem b hs, addNode_of_mem b ht]

/-- `update` preserves the graph invariant. -/
theorem update_preserves_inv {P : Type} {b : BufferTree P} (hInv : GraphInv b.graph)
    (source target : String) (sp : StampedPose P) (kind : TransformType) :
    GraphInv (b.update source target sp kind).2.graph := by
  rw [BufferTree.update]
  simp only
  set s := (b.index.index source).1 with hs
  set t := ((b.index.index source).2.index target).1 with ht
  by_cases hedge : ((b.graph.addNode s).addNode t).containsEdge s t = true
  · rw [hedge]
    simp only [Bool.not_true, Bool.false_eq_true, if_false]
    have hg1 : (b.graph.addNode s).addNode t = b.graph := by
      have hedge' : b.graph.containsEdge s t = true := by
        rw [DiGraph.containsEdge, ← addNode_edges b.graph s,
          ← addNode_edges (b.graph.addNode s) t]
        exact hedge
      exact g1_eq_of_edge_exists hInv hedge'
    rw [hg1]
    exact graphInv_congr (updateEdge_nodes _ _ _ _) (updateEdge_edgeKeys _ _ _ _) hInv
  · have hedge' : ((b.graph.addNode s).addNode t).containsEdge s t = false :=
      Bool.eq_false_iff.mpr hedge
    rw [hedge']
    simp only [Bool.not_false, if_true]
    set g2 := ((b.graph.addNode s).addNode t).addEdge s t
      (TransformHistory.new P kind b.max_transform_history) with hg2
    by_cases hrej : (g2.isCyclicUndirected || decide (1 < g2.incomingCount t)) = true
    · rw [hrej]
      simp only [if_true]
      rw [rollback_restores hInv s t _ hedge']
      exact hInv
    · have hrej' := Bool.eq_false_iff.mpr hrej
      rw [hrej']
      simp only [Bool.false_eq_true, if_false]
      rw [Bool.or_eq_false_iff] at hrej'
      obtain ⟨hchk, hinc⟩ := hrej'
      have hinc2 : ¬ 1 < g2.incomingCount t := of_decide_eq_false hinc
      have hno : (s, t) ∉ b.graph.edgeKeys := by
        intro hmem
        have hkeys1 : ((b.graph.addNode s).addNode t).edgeKeys = b.graph.edgeKeys := by
          rw [DiGraph.edgeKeys, addNode_edges, addNode_edges, DiGraph.edgeKeys]
        have := (containsEdge_iff_keys ((b.graph.addNode s).addNode t) s t).mpr
          (by rw [hkeys1]; exact hmem)
        rw [this] at hedge'
        exact Bool.noConfusion hedge'
      have hinv2 : GraphInv g2 := hInv.accept_new hno hchk hinc2
      exact graphInv_congr (updateEdge_nodes _ _ _ _) (updateEdge_edgeKeys _ _ _ _) hinv2

/-- The graph of the empty buffer satisfies the invariant. -/
lemma graphInv_empty {P : Type} (maxHistory : ℕ) :
    GraphInv (BufferTree.new P maxHistory).graph := by
  refine ⟨List.nodup_nil, List.nodup_nil, ?_, ?_, ?_, ?_, ?_⟩
  · intro k hk; exact absurd hk (List.not_mem_nil k)
  · intro k hk; exact absurd hk (List.not_mem_nil k)
  · intro n
    rw [incomingCount_eq_keys]
    simp [BufferTree.new, DiGraph.edgeKeys]
  · intro vs ks hcyc
    obtain ⟨hwalk, hne, _, _⟩ := hcyc
    rcases ks with _ | ⟨k, ks⟩
    · exact hne rfl
    · cases hwalk with
      | cons hstep _ => exact absurd hstep.2 (List.not_mem_nil k)
  · intro n hn; exact absurd hn (List.not_mem_nil n)

/-- Every reachable buffer satisfies the graph invariant. -/
theorem reachable_graphInv {P : Type} {maxHistory : ℕ} {b : BufferTree P}
    (h : Reachable P maxHistory b) : GraphInv b.graph := by
  induction h with
  | init => exact graphInv_empty maxHistory
  | step source target sp kind _ ih => exact update_preserves_inv ih source target sp kind
  | touch source target _ ih => exact ih

lemma addEdge_prep_incoming {P : Type} (g : DiGraph P) (s t : ℕ)
    (w : TransformHistory P) (n : ℕ) :
    (((g.addNode s).addNode t).addEdge s t w).incomingCount n =
      g.incomingCount n + (if t = n then 1 else 0) := by
  rw [incomingCount_addEdge]
  congr 1
  rw [DiGraph.incomingCount, addNode_edges, addNode_edges, DiGraph.incomingCount]

lemma addEdge_prep_head_mem {P : Type} {g : DiGraph P} (hInv : GraphInv g) (s t : ℕ)
    (w : TransformHistory P) :
    ∀ k ∈ (((g.addNode s).addNode t).addEdge s t w).edgeKeys,
      k.2 ∈ (((g.addNode s).addNode t).addEdge s t w).nodes := by
  have hsing1 : s ∈ ((g.addNode s).addNode t).nodes :=
    mem_nodes_addNode_of_mem ((addNode_mem g s s).mpr (Or.inr rfl))
  have hting1 : t ∈ ((g.addNode s).addNode t).nodes :=
    (addNode_mem _ t t).mpr (Or.inr rfl)
  have hg1keys : ((g.addNode s).addNode t).edgeKeys = g.edgeKeys := by
    rw [DiGraph.edgeKeys, addNode_edges, addNode_edges, DiGraph.edgeKeys]
  intro k hk
  rw [addEdge_edgeKeys, hg1keys] at hk
  rw [addEdge_of_mem _ hsing1 hting1]
  rcases List.mem_append.mp hk with hk | hk
  · exact mem_nodes_addNode_of_mem (mem_nodes_addNode_of_mem (hInv.head_mem k hk))
  · rw [List.mem_singleton] at hk
    subst hk
    exact hting1

/-- A failing `update` leaves the graph exactly as before the call. -/
theorem update_error_graph_eq {P : Type} {b : BufferTree P} (hInv : GraphInv b.graph)
    (source target : String) (sp : StampedPose P) (kind : TransformType)
    (hfail : (b.update source target sp kind).1 = Except.error TfError.InvalidGraph) :
    (b.update source target sp kind).2.graph = b.graph := by
  rw [BufferTree.update] at hfail ⊢
  simp only at hfail ⊢
  set s := (b.index.index source).1 with hs
  set t := ((b.index.index source).2.index target).1 with ht
  by_cases hedge : ((b.graph.addNode s).addNode t).containsEdge s t = true
  · rw [hedge] at hfail
    simp at hfail
  · have hedge' : ((b.graph.addNode s).addNode t).containsEdge s t = false :=
      Bool.eq_false_iff.mpr hedge
    rw [hedge'] at hfail ⊢
    simp only [Bool.not_false, if_true] at hfail ⊢
    set g2 := ((b.graph.addNode s).addNode t).addEdge s t
      (TransformHistory.new P kind b.max_transform_history) with hg2
    by_cases hrej : (g2.isCyclicUndirected || decide (1 < g2.incomingCount t)) = true
    · rw [hrej]
      simp only [if_true]
      exact rollback_restores hInv s t _ hedge'
    · rw [Bool.eq_false_iff.mpr hrej] at hfail
      simp at hfail

/-- Claim C2: in every state reachable by a sequence of `update` calls the
graph is a forest — every node has at most one incoming edge and the
underlying undirected graph is acyclic — and any call whose provisional edge
insertion would give the target a second incoming edge or close an
undirected cycle returns `InvalidGraph` and does not commit the edge (the
graph is left exactly as before). -/
theorem spec_C2_tree_invariant {P : Type} {maxHistory : ℕ} {b : BufferTree P}
    (h : Reachable P maxHistory b) :
    (∀ n, b.graph.incomingCount n ≤ 1) ∧
    (∀ vs ks, ¬ IsUndirCycle b.graph vs ks) ∧
    (∀ (source target : String) (sp : StampedPose P) (kind : TransformType),
      b.graph.containsEdge (b.index.index source).1
          (((b.index.index source).2.index target).1) = false →
      ((∃ vs ks, IsUndirCycle
          (((b.graph.addNode (b.index.index source).1).addNode
              (((b.index.index source).2.index target).1)).addEdge
            (b.index.index source).1 (((b.index.index source).2.index target).1)
            (TransformHistory.new P kind b.max_transform_history)) vs ks) ∨
        1 < (((b.graph.addNode (b.index.index source).1).addNode
              (((b.index.index source).2.index target).1)).addEdge
            (b.index.index source).1 (((b.index.index source).2.index target).1)
            (TransformHistory.new P kind b.max_transform_history)).incomingCount
            (((b.index.index source).2.index target).1)) →
      (b.update source target sp kind).1 = Except.error TfError.InvalidGraph ∧
      (b.update source target sp kind).2.graph = b.graph) := by
  have hInv := reachable_graphInv h
  refine ⟨hInv.incoming_le, hInv.acyclic, ?_⟩
  intro source target sp kind hfresh hviol
  set s := (b.index.index source).1 with hs
  set t := ((b.index.index source).2.index target).1 with ht
  set w := TransformHistory.new P kind b.max_transform_history with hw
  set g2 := ((b.graph.addNode s).addNode t).addEdge s t w with hg2
  have hfresh1 : ((b.graph.addNode s).addNode t).containsEdge s t = false := by
    rw [DiGraph.containsEdge, addNode_edges, addNode_edges, ← DiGraph.containsEdge]
    exact hfresh
  have hcheck : (g2.isCyclicUndirected || decide (1 < g2.incomingCount t)) = true := by
    rcases hviol with ⟨vs, ks, hcyc⟩ | hgt
    · by_cases hgt : 1 < g2.incomingCount t
      · rw [Bool.or_eq_true]
        exact Or.inr (decide_eq_true hgt)
      · have hincle : ∀ n, g2.incomingCount n ≤ 1 := by
          intro n
          by_cases hn : t = n
          · subst hn; omega
          · rw [hg2, addEdge_prep_incoming, if_neg hn]
            have := hInv.incoming_le n
            omega
        rw [Bool.or_eq_true]
        exact Or.inl (isCyclicUndirected_eq_true_of_cycle g2
          (addEdge_prep_head_mem hInv s t w) hincle hcyc)
    · rw [Bool.or_eq_true]
      exact Or.inr (decide_eq_true hgt)
  have hfail : (b.update source target sp kind).1 = Except.error TfError.InvalidGraph := by
    rw [BufferTree.update]
    simp only
    rw [← hs, ← ht, hfresh1]
    simp only [Bool.not_false, if_true]
    rw [← hw, ← hg2, hcheck]
    simp only [if_true]
  exact ⟨hfail, update_error_graph_eq hInv source target sp kind hfail⟩

/-- Witness for C2 on the concrete second-parent scenario `A→B` then `C→B`. -/
theorem spec_C2_tree_invariant_witness :
    ((((BufferTree.new Unit 1000).update "A" "B" ⟨(), 1⟩ TransformType.Static).2.update
        "C" "B" ⟨(), 2⟩ TransformType.Static).1 = Except.error TfError.InvalidGraph ∧
      (((BufferTree.new Unit 1000).update "A" "B" ⟨(), 1⟩ TransformType.Static).2.update
        "C" "B" ⟨(), 2⟩ TransformType.Static).2.graph =
        ((BufferTree.new Unit 1000).update "A" "B" ⟨(), 1⟩
          TransformType.Static).2.graph) :=
  (spec_C2_tree_invariant (Reachable.step "A" "B" ⟨(), 1⟩ TransformType.Static
      Reachable.init)).2.2 "C" "B" ⟨(), 2⟩ TransformType.Static (by decide)
    (Or.inr (by decide))

instance {e a : Type} [DecidableEq e] [DecidableEq a] : DecidableEq (Except e a) := fun x y =>
  match x, y with
  | Except.ok u, Except.ok v =>
    if h : u = v then isTrue (by rw [h]) else
      isFalse (by intro hc; injection hc with h2; exact h h2)
  | Except.error u, Except.error v =>
    if h : u = v then isTrue (by rw [h]) else
      isFalse (by intro hc; injection hc with h2; exact h h2)
  | Except.ok _, Except.error _ => isFalse (by intro hc; exact Except.noConfusion hc)
  | Except.error _, Except.ok _ => isFalse (by intro hc; exact Except.noConfusion hc)

/-- Claim C3 counterexample: after `A→B` succeeds and `C→B` fails with
`InvalidGraph`, the graph is rolled back, but the buffer is *not* equal to
its pre-call state: the name index keeps the entry allocated for `C`, and
this is observable — `lookup_latest_transform("C", "A")` now panics inside
the path walk, where a buffer that never saw `C` returns
`CouldNotFindTransform`. -/
theorem spec_C3_counterexample :
    ((((BufferTree.new Unit 1000).update "A" "B" ⟨(), 1⟩ TransformType.Static).2.update
        "C" "B" ⟨(), 2⟩ TransformType.Static).1 = Except.error TfError.InvalidGraph) ∧
    ((((BufferTree.new Unit 1000).update "A" "B" ⟨(), 1⟩ TransformType.Static).2.update
        "C" "B" ⟨(), 2⟩ TransformType.Static).2.index.contains "C" = true) ∧
    (((BufferTree.new Unit 1000).update "A" "B" ⟨(), 1⟩
        TransformType.Static).2.index.contains "C" = false) ∧
    ((((BufferTree.new Unit 1000).update "A" "B" ⟨(), 1⟩ TransformType.Static).2.update
        "C" "B" ⟨(), 2⟩ TransformType.Static).2 ≠
      ((BufferTree.new Unit 1000).update "A" "B" ⟨(), 1⟩ TransformType.Static).2) ∧
    (((((BufferTree.new Unit 1000).update "A" "B" ⟨(), 1⟩
          TransformType.Static).2.update "C" "B" ⟨(), 2⟩
          TransformType.Static).2.lookup_latest_transform "C" "A").1 =
        LookupResult.panic) ∧
    ((((BufferTree.new Unit 1000).update "A" "B" ⟨(), 1⟩
          TransformType.Static).2.lookup_latest_transform "C" "A").1 =
        LookupResult.err TfError.CouldNotFindTransform) := by
  refine ⟨by decide, by decide, by decide, by decide, by decide, by decide⟩

/-- Claim C3 amended: whenever `update` fails with `InvalidGraph` on a
reachable buffer, the *graph* is rolled back to exactly its pre-call value
(provisional edge removed, nodes created solely by the failed call removed);
the name→id index, however, retains the entries allocated for the failed
call's frame names, so the buffer as a whole is not restored and later
lookups can observe the difference. -/
theorem spec_C3_rollback_amended {P : Type} {maxHistory : ℕ} {b : BufferTree P}
    (h : Reachable P maxHistory b) (source target : String) (sp : StampedPose P)
    (kind : TransformType)
    (hfail : (b.update source target sp kind).1 = Except.error TfError.InvalidGraph) :
    (b.update source target sp kind).2.graph = b.graph :=
  update_error_graph_eq (reachable_graphInv h) source target sp kind hfail

/-- Witness for the amended C3 statement on the `A→B`, then failing `C→B`
scenario. -/
theorem spec_C3_rollback_amended_witness :
    (((BufferTree.new Unit 1000).update "A" "B" ⟨(), 1⟩ TransformType.Static).2.update
        "C" "B" ⟨(), 2⟩ TransformType.Static).2.graph =
      ((BufferTree.new Unit 1000).update "A" "B" ⟨(), 1⟩ TransformType.Static).2.graph :=
  spec_C3_rollback_amended (Reachable.step "A" "B" ⟨(), 1⟩ TransformType.Static
    Reachable.init) "C" "B" ⟨(), 2⟩ TransformType.Static (by decide)

lemma THist_update_ne_nil {P : Type} (th : TransformHistory P) (sp : StampedPose P)
    (h : th.history ≠ [] ∨ 1 ≤ th.max_history) : (th.update sp).history ≠ [] := by
  rw [TransformHistory.update]
  simp only
  by_cases hfull : th.max_history < (th.history ++ [sp]).length
  · rw [if_pos hfull]
    rcases h with h | h
    · intro hc
      have := congrArg List.length hc
      rw [List.length_drop, List.length_append] at this
      simp only [List.length_singleton, List.length_nil] at this
      have hlen : 1 ≤ th.history.length := List.length_pos.mpr h
      omega
    · intro hc
      have := congrArg List.length hc
      rw [List.length_drop, List.length_append] at this
      simp only [List.length_singleton, List.length_nil] at this
      rw [List.length_append, List.length_singleton] at hfull
      omega
  · rw [if_neg hfull]
    intro hc
    have := congrArg List.length hc
    rw [List.length_append] at this
    simp at this

lemma update_max_history {P : Type} (b : BufferTree P) (source target : String)
    (sp : StampedPose P) (kind : TransformType) :
    (b.update source target sp kind).2.max_transform_history =
      b.max_transform_history := by
  rw [BufferTree.update]
  simp only
  split
  · split
    · rfl
    · rfl
  · rfl

lemma reachable_max_history {P : Type} {maxHistory : ℕ} {b : BufferTree P}
    (h : Reachable P maxHistory b) : b.max_transform_history = maxHistory := by
  induction h with
  | init => rfl
  | step source target sp kind hb ih => rw [update_max_history]; exact ih
  | touch source target hb ih => exact ih

/-- Histories stored on edges are never empty in reachable buffers. -/
theorem reachable_histories_ne_nil {P : Type} {maxHistory : ℕ} {b : BufferTree P}
    (h : Reachable P maxHistory b) (hpos : 1 ≤ maxHistory) :
    ∀ e ∈ b.graph.edges, e.2.history ≠ [] := by
  induction h with
  | init => intro e he; exact absurd he (List.not_mem_nil e)
  | step source target sp kind hb ih =>
    rename_i b'
    have hmax : b'.max_transform_history = maxHistory := reachable_max_history hb
    have hInv : GraphInv b'.graph := reachable_graphInv hb
    rw [BufferTree.update]
    simp only
    set s := (b'.index.index source).1 with hs
    set t := ((b'.index.index source).2.index target).1 with ht
    by_cases hedge : ((b'.graph.addNode s).addNode t).containsEdge s t = true
    · rw [hedge]
      simp only [Bool.not_true, Bool.false_eq_true, if_false]
      intro e he
      rw [DiGraph.updateEdge] at he
      simp only at he
      rw [addNode_edges, addNode_edges] at he
      rcases List.mem_map.mp he with ⟨e0, he0, hfe⟩
      by_cases hk : e0.1 = (s, t)
      · rw [if_pos (by simpa using hk)] at hfe
        rw [← hfe]
        exact THist_update_ne_nil _ _ (Or.inl (ih e0 he0))
      · rw [if_neg (by simpa using hk)] at hfe
        rw [← hfe]
        exact ih e0 he0
    · rw [Bool.eq_false_iff.mpr hedge]
      simp only [Bool.not_false, if_true]
      set g2 := ((b'.graph.addNode s).addNode t).addEdge s t
        (TransformHistory.new P kind b'.max_transform_history) with hg2
      by_cases hrej : (g2.isCyclicUndirected || decide (1 < g2.incomingCount t)) = true
      · rw [hrej]
        simp only [if_true]
        rw [rollback_restores hInv s t _ (Bool.eq_false_iff.mpr hedge)]
        exact ih
      · rw [Bool.eq_false_iff.mpr hrej]
        simp only [Bool.false_eq_true, if_false]
        intro e he
        rw [DiGraph.updateEdge] at he
        simp only at he
        rw [hg2, addEdge_edges, addNode_edges, addNode_edges] at he
        rw [List.map_append] at he
        rcases List.mem_append.mp he with he | he
        · rcases List.mem_map.mp he with ⟨e0, he0, hfe⟩
          by_cases hk : e0.1 = (s, t)
          · rw [if_pos (by simpa using hk)] at hfe
            rw [← hfe]
            exact THist_update_ne_nil _ _ (Or.inl (ih e0 he0))
          · rw [if_neg (by simpa using hk)] at hfe
            rw [← hfe]
            exact ih e0 he0
        · simp only [List.map_cons, List.map_nil, List.mem_singleton] at he
          rw [he]
          simp only [beq_self_eq_true, if_pos]
          refine THist_update_ne_nil _ _ (Or.inr ?_)
          rw [TransformHistory.new]
          simp only
          omega
  | touch source target hb ih => exact ih

/-- Claim C10: in every reachable buffer state every stored edge has a
non-empty history (a successful `update` that creates an edge appends its
first stamped pose in the same call, failed insertions roll the edge back),
so the "latest entry" access of `lookup_latest_transform` and of static
interpolation succeeds on every existing edge. -/
theorem spec_C10_nonempty_histories {P : Type} {maxHistory : ℕ} {b : BufferTree P}
    (h : Reachable P maxHistory b) (hpos : 1 ≤ maxHistory) :
    (∀ e ∈ b.graph.edges, e.2.history ≠ []) ∧
    (∀ a c : ℕ, b.graph.containsEdge a c = true →
      ∃ w sp, b.graph.edgeWeight a c = some w ∧ w.history.getLast? = some sp) := by
  have hne := reachable_histories_ne_nil h hpos
  refine ⟨hne, ?_⟩
  intro a c hedge
  rw [DiGraph.containsEdge, List.any_eq_true] at hedge
  obtain ⟨e, he, hpred⟩ := hedge
  rcases hfind : b.graph.edges.find? (fun x => x.1 == (a, c)) with _ | e'
  · exact absurd hpred (by simpa using List.find?_eq_none.mp hfind e he)
  · have he' : e' ∈ b.graph.edges := List.mem_of_find?_eq_some hfind
    have hne' : e'.2.history ≠ [] := hne e' he'
    refine ⟨e'.2, e'.2.history.getLast hne', ?_, ?_⟩
    · rw [DiGraph.edgeWeight, hfind]
      rfl
    · exact List.getLast?_eq_getLast _ hne'

/-- Witness for C10: the edge created by a first `update` has a readable
latest entry. -/
theorem spec_C10_nonempty_histories_witness :
    ∃ w sp, ((BufferTree.new Unit 1000).update "A" "B" ⟨(), 1⟩
        TransformType.Static).2.graph.edgeWeight 0 1 = some w ∧
      w.history.getLast? = some sp :=
  (spec_C10_nonempty_histories (Reachable.step "A" "B" ⟨(), 1⟩ TransformType.Static
      Reachable.init) (by decide)).2 0 1 (by decide)

/-- The ancestor chain from `n` following parent pointers, at most `fuel`
steps, starting node included. -/
def chainList {P : Type} (g : DiGraph P) : ℕ → ℕ → List ℕ
  | 0, n => [n]
  | fuel + 1, n =>
    match g.parent? n with
    | none => [n]
    | some p => n :: chainList g fuel p

lemma chainList_ne_nil {P : Type} (g : DiGraph P) (fuel n : ℕ) :
    chainList g fuel n ≠ [] := by
  cases fuel with
  | zero => simp [chainList]
  | succ m =>
    rw [chainList]
    rcases g.parent? n with _ | p <;> simp

lemma chainList_head {P : Type} (g : DiGraph P) (fuel n : ℕ) :
    (chainList g fuel n).head? = some n := by
  cases fuel with
  | zero => rfl
  | succ m =>
    rw [chainList]
    rcases g.parent? n with _ | p <;> rfl

/-- Consecutive chain entries are joined by parent pointers. -/
lemma chainList_chain' {P : Type} (g : DiGraph P) (fuel : ℕ) :
    ∀ n, (chainList g fuel n).Chain' (fun a b => g.parent? a = some b) := by
  induction fuel with
  | zero => intro n; simp [chainList]
  | succ m ih =>
    intro n
    rw [chainList]
    rcases hp : g.parent? n with _ | p
    · simp
    · rw [List.chain'_cons']
      refine ⟨?_, ih p⟩
      intro y hy
      rw [chainList_head] at hy
      have hyp : y = p := by
        have := hy
        simp only [Option.mem_def, Option.some.injEq] at this
        exact this.symm
      rw [hyp]
      exact hp

lemma parent_key_mem {P : Type} {g : DiGraph P} {n p : ℕ}
    (h : g.parent? n = some p) : (p, n) ∈ g.edgeKeys := by
  rw [DiGraph.parent?] at h
  rcases hfind : g.edges.find? (fun e => e.1.2 == n) with _ | e
  · rw [hfind] at h; exact Option.noConfusion h
  · rw [hfind] at h
    have hmem : e ∈ g.edges := List.mem_of_find?_eq_some hfind
    have hpred : e.1.2 = n := by simpa using List.find?_some hfind
    have hp : e.1.1 = p := Option.some.inj h
    have : e.1 = (p, n) := by
      rw [Prod.ext_iff]
      exact ⟨hp, hpred⟩
    exact this ▸ List.mem_map.mpr ⟨e, hmem, rfl⟩

lemma chainList_mem {P : Type} {g : DiGraph P} (hInv : GraphInv g) (fuel : ℕ) :
    ∀ n x, x ∈ chainList g fuel n → x = n ∨ x ∈ g.nodes := by
  induction fuel with
  | zero =>
    intro n x hx
    rw [chainList, List.mem_singleton] at hx
    exact Or.inl hx
  | succ m ih =>
    intro n x hx
    rw [chainList] at hx
    rcases hp : g.parent? n with _ | p
    · rw [hp, List.mem_singleton] at hx
      exact Or.inl hx
    · rw [hp, List.mem_cons] at hx
      rcases hx with hx | hx
      · exact Or.inl hx
      · have hpn : p ∈ g.nodes := hInv.tail_mem (p, n) (parent_key_mem hp)
        rcases ih p x hx with h | h
        · exact Or.inr (h ▸ hpn)
        · exact Or.inr h


lemma exists_dup_split {α : Type} [DecidableEq α] :
    ∀ {l : List α}, ¬ l.Nodup →
    ∃ (l1 : List α) (x : α) (l2 l3 : List α), l = l1 ++ x :: l2 ++ x :: l3 := by
  intro l
  induction l with
  | nil => intro h; exact absurd List.nodup_nil h
  | cons a t ih =>
    intro h
    by_cases ha : a ∈ t
    · obtain ⟨s1, s2, hsplit⟩ := List.append_of_mem ha
      exact ⟨[], a, s1, s2, by rw [hsplit]; rfl⟩
    · have hnt : ¬ t.Nodup := by
        intro hn
        exact h (List.nodup_cons.mpr ⟨ha, hn⟩)
      obtain ⟨l1, x, l2, l3, hsp⟩ := ih hnt
      exact ⟨a :: l1, x, l2, l3, by rw [hsp]; rfl⟩

lemma closed_chain_of_dup {P : Type} (g : DiGraph P) :
    ∀ (N : ℕ) (c : List ℕ), c.length ≤ N →
    c.Chain' (fun a b => g.parent? a = some b) → ¬ c.Nodup →
    ∃ x mid, (x :: mid ++ [x]).Chain' (fun a b => g.parent? a = some b) ∧
      (x :: mid).Nodup := by
  intro N
  induction N with
  | zero =>
    intro c hlen hchain hdup
    have : c = [] := List.length_eq_zero.mp (by omega)
    rw [this] at hdup
    exact absurd List.nodup_nil hdup
  | succ N ih =>
    intro c hlen hchain hdup
    obtain ⟨l1, x, l2, l3, hsplit⟩ := exists_dup_split hdup
    have hinfix : (x :: l2 ++ [x]) <:+: c := by
      refine ⟨l1, l3, ?_⟩
      rw [hsplit]
      simp
    have hseg : (x :: l2 ++ [x]).Chain' (fun a b => g.parent? a = some b) :=
      List.Chain'.infix hchain hinfix
    by_cases hnd : (x :: l2).Nodup
    · exact ⟨x, l2, hseg, hnd⟩
    · have hpre : (x :: l2) <:+: c :=
        List.IsInfix.trans ⟨[], [x], by simp⟩ hinfix
      have hlen2 : (x :: l2).length ≤ N := by
        have := congrArg List.length hsplit
        simp only [List.length_append, List.length_cons] at this
        simp only [List.length_cons]
        omega
      exact ih (x :: l2) hlen2 ( List.Chain'.infix hchain hpre) hnd

/-- The edge keys used by a downward parent chain, each taken in its stored
(parent → child) direction. -/
def chainKeys : List ℕ → List (ℕ × ℕ)
  | [] => []
  | [_] => []
  | a :: b :: rest => (b, a) :: chainKeys (b :: rest)

lemma chainKeys_walk {P : Type} (g : DiGraph P) :
    ∀ (vs : List ℕ), vs ≠ [] → vs.Chain' (fun a b => g.parent? a = some b) →
    UndirWalk g vs (chainKeys vs) := by
  intro vs
  induction vs with
  | nil => intro h; exact absurd rfl h
  | cons a t ih =>
    intro _ hchain
    rcases t with _ | ⟨b, rest⟩
    · exact UndirWalk.single a
    · rw [List.chain'_cons] at hchain
      refine UndirWalk.cons ⟨Or.inr rfl, parent_key_mem hchain.1⟩ ?_
      exact ih (by simp) hchain.2

lemma chainKeys_map_snd : ∀ (vs : List ℕ), (chainKeys vs).map Prod.snd = vs.dropLast := by
  intro vs
  induction vs with
  | nil => rfl
  | cons a t ih =>
    rcases t with _ | ⟨b, rest⟩
    · rfl
    · rw [chainKeys]
      simp only [List.map_cons]
      rw [ih]
      rfl

lemma cycle_of_closed_parent_chain {P : Type} (g : DiGraph P) {x : ℕ} {mid : List ℕ}
    (hchain : (x :: mid ++ [x]).Chain' (fun a b => g.parent? a = some b))
    (hnd : (x :: mid).Nodup) :
    ∃ vs ks, IsUndirCycle g vs ks := by
  refine ⟨x :: mid ++ [x], chainKeys (x :: mid ++ [x]), ?_, ?_, ?_, ?_⟩
  · exact chainKeys_walk g _ (by simp) hchain
  · rcases mid with _ | ⟨m, ms⟩
    · simp [chainKeys]
    · simp [chainKeys]
  · have hmap : (chainKeys (x :: mid ++ [x])).map Prod.snd = x :: mid := by
      rw [chainKeys_map_snd]
      rw [show x :: mid ++ [x] = (x :: mid) ++ [x] from rfl]
      rw [List.dropLast_concat]
    refine List.Nodup.of_map Prod.snd ?_
    rw [hmap]
    exact hnd
  · rw [show x :: mid ++ [x] = (x :: mid) ++ [x] from rfl]
    rw [List.getLast?_concat]
    rfl

lemma chainList_nodup {P : Type} {g : DiGraph P} (hInv : GraphInv g) (fuel n : ℕ) :
    (chainList g fuel n).Nodup := by
  by_contra hdup
  obtain ⟨x, mid, hchain, hnd⟩ := closed_chain_of_dup g (chainList g fuel n).length
    (chainList g fuel n) (le_refl _) (chainList_chain' g fuel n) hdup
  obtain ⟨vs, ks, hcyc⟩ := cycle_of_closed_parent_chain g hchain hnd
  exact hInv.acyclic vs ks hcyc

lemma chainList_length_le {P : Type} {g : DiGraph P} (hInv : GraphInv g) (fuel : ℕ)
    {n : ℕ} (hn : n ∈ g.nodes) :
    (chainList g fuel n).length ≤ g.nodes.length := by
  have hnd := chainList_nodup hInv fuel n
  have hsub : (chainList g fuel n).toFinset ⊆ g.nodes.toFinset := by
    intro x hx
    rw [List.mem_toFinset] at hx ⊢
    rcases chainList_mem hInv fuel n x hx with h | h
    · rwa [h]
    · exact h
  calc (chainList g fuel n).length = (chainList g fuel n).toFinset.card :=
        (List.toFinset_card_of_nodup hnd).symm
    _ ≤ g.nodes.toFinset.card := Finset.card_le_card hsub
    _ = g.nodes.length := List.toFinset_card_of_nodup hInv.nodes_nodup
    _ ≤ g.nodes.length := le_refl _

lemma chainList_fuel_stable {P : Type} (g : DiGraph P) :
    ∀ (fuel : ℕ) (n : ℕ), (chainList g fuel n).length ≤ fuel →
    ∀ k, chainList g (fuel + k) n = chainList g fuel n := by
  intro fuel
  induction fuel with
  | zero =>
    intro n hlen k
    have := chainList_ne_nil g 0 n
    have hpos : 1 ≤ (chainList g 0 n).length := List.length_pos.mpr this
    omega
  | succ m ih =>
    intro n hlen k
    have hstep : m + 1 + k = (m + k) + 1 := by omega
    rcases hp : g.parent? n with _ | p
    · rw [hstep]
      simp only [chainList, hp]
    · simp only [chainList, hp, List.length_cons] at hlen
      rw [hstep]
      simp only [chainList, hp]
      rw [ih p (by omega) k]

lemma chainList_shape {P : Type} (g : DiGraph P) (fuel n : ℕ) :
    ∃ tl, chainList g fuel n = n :: tl := by
  obtain ⟨hd, tl, he⟩ := List.exists_cons_of_ne_nil (chainList_ne_nil g fuel n)
  have hh := chainList_head g fuel n
  rw [he] at hh
  simp only [List.head?_cons, Option.some.injEq] at hh
  exact ⟨tl, by rw [he, hh]⟩

/-- The root of `n`'s ancestor chain (with canonical fuel). -/
def chainRoot {P : Type} (g : DiGraph P) (n : ℕ) : ℕ :=
  (chainList g (g.nodes.length + 1) n).getLast (chainList_ne_nil g _ n)

/-- Undirected adjacency: a stored edge joins the two nodes in either
direction. -/
def undirAdj {P : Type} (g : DiGraph P) (a b : ℕ) : Prop :=
  g.containsEdge a b = true ∨ g.containsEdge b a = true

/-- Undirected connectivity in the buffer graph. -/
def Connected {P : Type} (g : DiGraph P) : ℕ → ℕ → Prop :=
  Relation.ReflTransGen (undirAdj g)

lemma chainRoot_parent {P : Type} {g : DiGraph P} (hInv : GraphInv g) {n p : ℕ}
    (hp : g.parent? n = some p) : chainRoot g n = chainRoot g p := by
  have h1 : chainList g (g.nodes.length + 1) n =
      n :: chainList g g.nodes.length p := by
    simp only [chainList, hp]
  have hpn : p ∈ g.nodes := hInv.tail_mem (p, n) (parent_key_mem hp)
  have hlen : (chainList g g.nodes.length p).length ≤ g.nodes.length :=
    chainList_length_le hInv _ hpn
  have h2 : chainList g (g.nodes.length + 1) p = chainList g g.nodes.length p :=
    chainList_fuel_stable g g.nodes.length p hlen 1
  have e1 : some (chainRoot g n) = some (chainRoot g p) := by
    rw [chainRoot, chainRoot, ← List.getLast?_eq_getLast, ← List.getLast?_eq_getLast,
      h1, h2]
    obtain ⟨tl, htl⟩ := chainList_shape g g.nodes.length p
    rw [htl]
    rfl
  exact Option.some.inj e1

lemma adj_parent {P : Type} {g : DiGraph P} (hInv : GraphInv g) {a b : ℕ}
    (h : undirAdj g a b) : g.parent? b = some a ∨ g.parent? a = some b := by
  rcases h with h | h
  · have hk : (a, b) ∈ g.edgeKeys := (containsEdge_iff_keys g a b).mp h
    exact Or.inl (parent_eq_of_key g hInv.incoming_le hk)
  · have hk : (b, a) ∈ g.edgeKeys := (containsEdge_iff_keys g b a).mp h
    exact Or.inr (parent_eq_of_key g hInv.incoming_le hk)

lemma connected_chainRoot_eq {P : Type} {g : DiGraph P} (hInv : GraphInv g) {a b : ℕ}
    (h : Connected g a b) : chainRoot g a = chainRoot g b := by
  induction h with
  | refl => rfl
  | tail hstep hadj ih =>
    rename_i x c
    have hbc : chainRoot g x = chainRoot g c := by
      rcases adj_parent hInv hadj with hpar | hpar
      · exact (chainRoot_parent hInv hpar).symm
      · exact chainRoot_parent hInv hpar
    rw [ih, hbc]

lemma chainRoot_mem_chain {P : Type} (g : DiGraph P) (n : ℕ) :
    chainRoot g n ∈ chainList g (g.nodes.length + 1) n :=
  List.getLast_mem _

/-- Behaviour of the first `find_path` loop: it follows `from`'s ancestor
chain, early-returning on the target. -/
lemma findPathLoop1_eq {P : Type} (g : DiGraph P) (toIdx : ℕ) :
    ∀ (fuel cur : ℕ) (acc : List ℕ),
    findPathLoop1 g toIdx fuel cur acc =
      if toIdx ∈ (chainList g fuel cur).tail then
        (true, acc ++ ((chainList g fuel cur).tail.take
          ((chainList g fuel cur).tail.indexOf toIdx + 1)))
      else (false, acc ++ (chainList g fuel cur).tail) := by
  intro fuel
  induction fuel with
  | zero =>
    intro cur acc
    simp [findPathLoop1, chainList]
  | succ m ih =>
    intro cur acc
    rw [findPathLoop1]
    rcases hp : g.parent? cur with _ | p
    · simp [chainList, hp]
    · simp only [chainList, hp, List.tail_cons]
      obtain ⟨tl, htl⟩ := chainList_shape g m p
      rw [htl]
      by_cases hpt : p = toIdx
      · subst hpt
        rw [if_pos rfl, if_pos (List.mem_cons_self _ _)]
        rw [List.indexOf_cons_self]
        simp
      · rw [if_neg hpt, ih p (acc ++ [p]), htl]
        simp only [List.tail_cons]
        by_cases hmem : toIdx ∈ tl
        · rw [if_pos hmem, if_pos (List.mem_cons_of_mem p hmem)]
          rw [List.indexOf_cons_ne _ (by exact hpt)]
          simp only [List.take_succ_cons]
          simp
        · rw [if_neg hmem, if_neg (by
            rw [List.mem_cons]
            rintro (hc | hc)
            · exact hpt hc.symm
            · exact hmem hc)]
          simp

/-- Behaviour of the second `find_path` loop: it follows `to`'s ancestor
chain until a node of `path1` appears, then truncates `path1` after it. -/
lemma findPathLoop2_eq {P : Type} (g : DiGraph P) (path1 : List ℕ) :
    ∀ (fuel cur : ℕ) (acc : List ℕ),
    findPathLoop2 g path1 fuel cur acc =
      match (chainList g fuel cur).tail.find? (fun x => decide (x ∈ path1)) with
      | none => (path1, acc ++ (chainList g fuel cur).tail)
      | some p => (path1.take (path1.indexOf p + 1),
          acc ++ (chainList g fuel cur).tail.takeWhile
            (fun x => !(decide (x ∈ path1)))) := by
  intro fuel
  induction fuel with
  | zero =>
    intro cur acc
    simp [findPathLoop2, chainList]
  | succ m ih =>
    intro cur acc
    rw [findPathLoop2]
    rcases hp : g.parent? cur with _ | p
    · simp [chainList, hp]
    · simp only [chainList, hp, List.tail_cons]
      obtain ⟨tl, htl⟩ := chainList_shape g m p
      rw [htl]
      by_cases hmem : p ∈ path1
      · rw [if_pos hmem]
        rw [List.find?_cons_of_pos _ (by simpa using hmem)]
        rw [List.takeWhile_cons_of_neg (by simpa using hmem)]
        simp
      · rw [if_neg hmem, ih p (acc ++ [p]), htl]
        simp only [List.tail_cons]
        rw [List.find?_cons_of_neg _ (by simpa using hmem)]
        rcases hfind : tl.find? (fun x => decide (x ∈ path1)) with _ | q
        · rw [List.takeWhile_cons_of_pos (by simpa using hmem)]
          simp
        · rw [List.takeWhile_cons_of_pos (by simpa using hmem)]
          simp

lemma no_self_key {P : Type} {g : DiGraph P} (hInv : GraphInv g) (a : ℕ) :
    (a, a) ∉ g.edgeKeys := by
  intro hmem
  refine hInv.acyclic [a, a] [(a, a)] ⟨?_, by simp, List.nodup_singleton _, rfl⟩
  exact UndirWalk.cons ⟨Or.inl rfl, hmem⟩ (UndirWalk.single a)

lemma no_antiparallel {P : Type} {g : DiGraph P} (hInv : GraphInv g) {a b : ℕ}
    (h1 : (a, b) ∈ g.edgeKeys) (h2 : (b, a) ∈ g.edgeKeys) : False := by
  by_cases hab : a = b
  · subst hab
    exact no_self_key hInv a h1
  · refine hInv.acyclic [a, b, a] [(a, b), (b, a)] ⟨?_, by simp, ?_, rfl⟩
    · exact UndirWalk.cons ⟨Or.inl rfl, h1⟩
        (UndirWalk.cons ⟨Or.inl rfl, h2⟩ (UndirWalk.single a))
    · refine List.nodup_cons.mpr ⟨?_, List.nodup_singleton _⟩
      rw [List.mem_singleton]
      intro hc
      exact hab (congrArg Prod.fst hc)

lemma edgeWeight_some_of_key {P : Type} {g : DiGraph P} {a b : ℕ}
    (h : (a, b) ∈ g.edgeKeys) : ∃ w, g.edgeWeight a b = some w := by
  obtain ⟨w, hw⟩ := edgeKeys_mem_entry h
  rcases hfind : g.edges.find? (fun e => e.1 == (a, b)) with _ | e
  · exact absurd (by simp : (((a, b), w) : (ℕ × ℕ) × TransformHistory P).1 == (a, b))
      (by simpa using List.find?_eq_none.mp hfind ((a, b), w) hw)
  · exact ⟨e.2, by rw [DiGraph.edgeWeight, hfind]; rfl⟩

lemma containsEdge_false_of_not_key {P : Type} {g : DiGraph P} {a b : ℕ}
    (h : (a, b) ∉ g.edgeKeys) : g.containsEdge a b = false := by
  rcases hc : g.containsEdge a b with _ | _
  · rfl
  · exact absurd ((containsEdge_iff_keys g a b).mp hc) h

lemma chainList_tail_parent {P : Type} (g : DiGraph P) (n : ℕ) {p : ℕ} {tl : List ℕ}
    (h : (chainList g (g.nodes.length + 1) n).tail = p :: tl) :
    g.parent? n = some p := by
  rw [chainList] at h
  rcases hp : g.parent? n with _ | q
  · rw [hp] at h
    simp at h
  · rw [hp] at h
    simp only [List.tail_cons] at h
    obtain ⟨tl', htl'⟩ := chainList_shape g g.nodes.length q
    rw [htl'] at h
    rw [List.cons.injEq] at h
    rw [h.1]

/-- `find_path(X, X)` on an invariant graph returns `[x, x]` at a root and
`[x, parent, x]` otherwise. -/
lemma findPathIds_self {P : Type} {g : DiGraph P} (hInv : GraphInv g) (f : ℕ) :
    (g.parent? f = none ∧ findPathIds g f f = [f, f]) ∨
    (∃ p, g.parent? f = some p ∧ findPathIds g f f = [f, p, f]) := by
  obtain ⟨tf, htf⟩ := chainList_shape g (g.nodes.length + 1) f
  have hnodup := chainList_nodup hInv (g.nodes.length + 1) f
  rw [htf] at hnodup
  have hfnot : f ∉ tf := (List.nodup_cons.mp hnodup).1
  rw [findPathIds, findPathLoop1_eq, htf]
  simp only [List.tail_cons]
  rw [if_neg hfnot]
  simp only [Bool.false_eq_true, if_false]
  rw [findPathLoop2_eq, htf]
  simp only [List.tail_cons]
  rcases htl : tf with _ | ⟨p, tl⟩
  · subst htl
    left
    constructor
    · rcases hp : g.parent? f with _ | q
      · rfl
      · exfalso
        simp only [chainList, hp] at htf
        rw [List.cons.injEq] at htf
        exact chainList_ne_nil g g.nodes.length q htf.2
    · simp
  · subst htl
    right
    have hp : g.parent? f = some p :=
      chainList_tail_parent g f (show _ = p :: tl by rw [htf]; rfl)
    refine ⟨p, hp, ?_⟩
    have hpmem : p ∈ [f] ++ p :: tl := by simp
    have hfind2 : (p :: tl).find? (fun x => decide (x ∈ [f] ++ p :: tl)) = some p :=
      List.find?_cons_of_pos _ (by simpa using hpmem)
    have htake : (p :: tl).takeWhile (fun x => !(decide (x ∈ [f] ++ p :: tl))) = [] :=
      List.takeWhile_cons_of_neg (by simpa using hpmem)
    simp only [hfind2, htake]
    have hfp : ¬ f = p := by
      intro hc
      exact hfnot (hc ▸ List.mem_cons_self p tl)
    simp only [List.singleton_append]
    rw [List.indexOf_cons_ne _ (by exact hfp), List.indexOf_cons_self]
    simp

lemma index_of_contains {ix : NodeIndex} {node : String}
    (h : ix.contains node = true) :
    ∃ id, ix.lookup node = some id ∧ ix.index node = (id, ix) := by
  rw [NodeIndex.contains] at h
  rcases hl : ix.lookup node with _ | id
  · rw [hl] at h
    exact absurd h (by simp)
  · exact ⟨id, rfl, by rw [NodeIndex.index, hl]⟩

lemma edgeWeight_none_of_not_key {P : Type} {g : DiGraph P} {a b : ℕ}
    (h : (a, b) ∉ g.edgeKeys) : g.edgeWeight a b = none := by
  rcases hfind : g.edges.find? (fun e => e.1 == (a, b)) with _ | e
  · rw [DiGraph.edgeWeight, hfind]
    rfl
  · exfalso
    have hmem : e ∈ g.edges := List.mem_of_find?_eq_some hfind
    have : e.1 = (a, b) := by simpa using List.find?_some hfind
    exact h (this ▸ List.mem_map.mpr ⟨e, hmem, rfl⟩)

/-- Claim C8: on any reachable buffer, whenever a self lookup
`lookup_transform(X, X, t)` succeeds (each per-edge pose selection along the
trivial self path succeeds), the returned pose is the group identity. -/
theorem spec_C8_self_lookup_identity {P : Type} [Group P] (lerpSlerp : P → P → ℚ → P)
    {maxHistory : ℕ} {b : BufferTree P} (h : Reachable P maxHistory b) (X : String)
    (time : ℚ) (sp : StampedPose P)
    (hok : (BufferTree.lookup_transform lerpSlerp b X X time).1 = LookupResult.ok sp) :
    sp.pose = 1 := by
  have hInv := reachable_graphInv h
  by_cases hc : b.index.contains X = true
  · obtain ⟨id, hl, hidx⟩ := index_of_contains hc
    simp only [BufferTree.lookup_transform, hc, Bool.not_true, Bool.or_self,
      Bool.false_eq_true, if_false] at hok
    have hfp1 : (b.find_path X X).1 = some (findPathIds b.graph id id) := by
      rw [BufferTree.find_path]
      simp only [hidx]
    rw [hfp1] at hok
    rcases findPathIds_self hInv id with ⟨hroot, hpath⟩ | ⟨p, hp, hpath⟩
    · rw [hpath] at hok
      have hnokey : (id, id) ∉ b.graph.edgeKeys := no_self_key hInv id
      have hnc : b.graph.containsEdge id id = false := containsEdge_false_of_not_key hnokey
      have hnw : b.graph.edgeWeight id id = none := edgeWeight_none_of_not_key hnokey
      simp only [composeAtGo, hnc, Bool.false_eq_true, if_false, hnw] at hok
      exact absurd hok (by simp)
    · rw [hpath] at hok
      have hkey : (p, id) ∈ b.graph.edgeKeys := parent_key_mem hp
      have hnokey : (id, p) ∉ b.graph.edgeKeys := by
        intro hk
        exact no_antiparallel hInv hk hkey
      have hnc : b.graph.containsEdge id p = false := containsEdge_false_of_not_key hnokey
      have hcp : b.graph.containsEdge p id = true := (containsEdge_iff_keys _ _ _).mpr hkey
      obtain ⟨w, hw⟩ := edgeWeight_some_of_key hkey
      simp only [composeAtGo, hnc, Bool.false_eq_true, if_false, hw, hcp, if_true] at hok
      rcases hi : w.interpolate lerpSlerp time with q | e | _
      · rw [hi] at hok
        simp only [LookupResult.ok.injEq] at hok
        rw [← hok]
        simp
      · rw [hi] at hok
        exact absurd hok (by simp)
      · rw [hi] at hok
        exact absurd hok (by simp)
  · have hcf : b.index.contains X = false := Bool.eq_false_iff.mpr hc
    rw [BufferTree.lookup_transform] at hok
    rw [hcf] at hok
    simp at hok

/-- Witness for C8: a concrete self lookup on the target frame of a stored
static edge returns the identity pose. -/
theorem spec_C8_self_lookup_identity_witness :
    (BufferTree.lookup_transform (P := Multiplicative ℤ) (fun a _ _ => a)
        ((BufferTree.new (Multiplicative ℤ) 1000).update "A" "B"
          ⟨Multiplicative.ofAdd 3, 1⟩ TransformType.Static).2 "B" "B" 5).1 =
      LookupResult.ok ⟨(1 : Multiplicative ℤ), 5⟩ ∧
    ((⟨(1 : Multiplicative ℤ), 5⟩ : StampedPose (Multiplicative ℤ)).pose = 1) :=
  ⟨by decide,
    @spec_C8_self_lookup_identity (Multiplicative ℤ) _ (fun a _ _ => a) 1000
      (((BufferTree.new (Multiplicative ℤ) 1000).update "A" "B"
        ⟨Multiplicative.ofAdd 3, 1⟩ TransformType.Static).2)
      (Reachable.step "A" "B" ⟨Multiplicative.ofAdd 3, 1⟩ TransformType.Static
        Reachable.init) "B" 5 ⟨(1 : Multiplicative ℤ), 5⟩ (by decide)⟩

lemma rel_imp_adj {P : Type} (g : DiGraph P) {a b : ℕ}
    (h : g.parent? a = some b) : undirAdj g a b :=
  Or.inr ((containsEdge_iff_keys g b a).mpr (parent_key_mem h))

lemma rel_imp_adj' {P : Type} (g : DiGraph P) {a b : ℕ}
    (h : g.parent? b = some a) : undirAdj g a b :=
  Or.inl ((containsEdge_iff_keys g a b).mpr (parent_key_mem h))

lemma find?_split {α : Type} (p : α → Bool) :
    ∀ (l : List α) (a : α), l.find? p = some a →
    l.takeWhile (fun x => !(p x)) ++ a :: (l.dropWhile (fun x => !(p x))).tail = l ∧
    p a = true := by
  intro l
  induction l with
  | nil => intro a h; exact absurd h (by simp)
  | cons x rest ih =>
    intro a h
    by_cases hx : p x = true
    · rw [List.find?_cons_of_pos _ hx] at h
      have hax : a = x := (Option.some.inj h).symm
      subst hax
      rw [List.takeWhile_cons_of_neg (by simp [hx]),
        List.dropWhile_cons_of_neg (by simp [hx])]
      exact ⟨rfl, hx⟩
    · have hx' : p x = false := Bool.eq_false_iff.mpr hx
      rw [List.find?_cons_of_neg _ hx] at h
      obtain ⟨hsp, hpa⟩ := ih a h
      rw [List.takeWhile_cons_of_pos (by simp [hx']),
        List.dropWhile_cons_of_pos (by simp [hx'])]
      refine ⟨?_, hpa⟩
      rw [List.cons_append, hsp]

lemma take_indexOf_getLast? {α : Type} [DecidableEq α] {l : List α} {a : α}
    (h : a ∈ l) : (l.take (l.indexOf a + 1)).getLast? = some a := by
  rw [List.take_succ, List.getElem?_indexOf h]
  simp

/-- Claim C5 counterexample: with the two disjoint trees `A→B` and `C→D`,
`find_path("A", "C")` does not return `None`; it returns the junk
concatenation `[0, 2]` of the two root chains, whose nodes are not even
connected in the graph. -/
theorem spec_C5_counterexample :
    (((((BufferTree.new Unit 1000).update "A" "B" ⟨(), 1⟩ TransformType.Static).2.update
        "C" "D" ⟨(), 1⟩ TransformType.Static).2.find_path "A" "C").1 = some [0, 2]) ∧
    ((((BufferTree.new Unit 1000).update "A" "B" ⟨(), 1⟩ TransformType.Static).2.update
        "C" "D" ⟨(), 1⟩ TransformType.Static).2.graph.containsEdge 0 2 = false) ∧
    ((((BufferTree.new Unit 1000).update "A" "B" ⟨(), 1⟩ TransformType.Static).2.update
        "C" "D" ⟨(), 1⟩ TransformType.Static).2.graph.containsEdge 2 0 = false) ∧
    ¬ Connected (((BufferTree.new Unit 1000).update "A" "B" ⟨(), 1⟩
        TransformType.Static).2.update "C" "D" ⟨(), 1⟩
        TransformType.Static).2.graph 0 2 := by
  refine ⟨by decide, by decide, by decide, ?_⟩
  intro hconn
  have hInv := reachable_graphInv (Reachable.step "C" "D" ⟨(), 1⟩ TransformType.Static
    (Reachable.step "A" "B" ⟨(), 1⟩ TransformType.Static (@Reachable.init Unit 1000)))
  have := connected_chainRoot_eq hInv hconn
  rw [show chainRoot (((BufferTree.new Unit 1000).update "A" "B" ⟨(), 1⟩
      TransformType.Static).2.update "C" "D" ⟨(), 1⟩
      TransformType.Static).2.graph 0 = 0 from by decide,
    show chainRoot (((BufferTree.new Unit 1000).update "A" "B" ⟨(), 1⟩
      TransformType.Static).2.update "C" "D" ⟨(), 1⟩
      TransformType.Static).2.graph 2 = 2 from by decide] at this
  exact absurd this (by decide)

/-- Claim C5 amended: `find_path` never returns `None` (both source exits
return `Some`); when the resolved endpoints of a reachable buffer are
distinct and connected in the graph, the returned sequence starts at
`from`, ends at `to`, and every consecutive pair of nodes is joined by a
stored edge in one direction or the other. -/
theorem spec_C5_find_path_amended {P : Type} {maxHistory : ℕ} {b : BufferTree P}
    (h : Reachable P maxHistory b) (source target : String) (f t : ℕ)
    (hf : (b.index.index source).1 = f)
    (ht : ((b.index.index source).2.index target).1 = t)
    (hft : f ≠ t) (hconn : Connected b.graph f t) :
    (∀ s2 t2 : String, (b.find_path s2 t2).1 ≠ none) ∧
    ∃ path, (b.find_path source target).1 = some path ∧
      path.head? = some f ∧ path.getLast? = some t ∧
      path.Chain' (undirAdj b.graph) := by
  have hInv := reachable_graphInv h
  refine ⟨fun s2 t2 => by simp only [BufferTree.find_path]; simp, ?_⟩
  have hfp : (b.find_path source target).1 = some (findPathIds b.graph f t) := by
    simp only [BufferTree.find_path]
    rw [hf, ht]
  obtain ⟨tf, htf⟩ := chainList_shape b.graph (b.graph.nodes.length + 1) f
  have hCf : (f :: tf).Chain' (fun a b' => b.graph.parent? a = some b') := by
    have := chainList_chain' b.graph (b.graph.nodes.length + 1) f
    rwa [htf] at this
  by_cases hmem : t ∈ tf
  · -- the target lies on the source's ancestor chain: loop 1 finds it
    have hIds : findPathIds b.graph f t = [f] ++ tf.take (tf.indexOf t + 1) := by
      simp only [findPathIds]
      rw [findPathLoop1_eq, htf]
      simp only [List.tail_cons]
      rw [if_pos hmem]
      rfl
    refine ⟨findPathIds b.graph f t, hfp, ?_, ?_, ?_⟩
    · rw [hIds, List.singleton_append]
      rfl
    · have htake : tf.take (tf.indexOf t + 1) ≠ [] := by
        have hlt : tf.indexOf t < tf.length := List.indexOf_lt_length.mpr hmem
        rw [← List.length_pos, List.length_take]
        omega
      rw [hIds, List.getLast?_append_of_ne_nil _ htake]
      exact take_indexOf_getLast? hmem
    · rw [hIds]
      have hpre : ([f] ++ tf.take (tf.indexOf t + 1)) <+: (f :: tf) := by
        rw [List.singleton_append, List.cons_prefix_cons]
        exact ⟨rfl, List.take_prefix _ _⟩
      exact ( List.Chain'.prefix hCf hpre).imp (fun a b' hab => rel_imp_adj b.graph hab)
  · -- otherwise loop 2 climbs the target's chain to the junction node
    obtain ⟨tt, htt⟩ := chainList_shape b.graph (b.graph.nodes.length + 1) t
    have hCt : (t :: tt).Chain' (fun a b' => b.graph.parent? a = some b') := by
      have := chainList_chain' b.graph (b.graph.nodes.length + 1) t
      rwa [htt] at this
    have hroot_mem_t : chainRoot b.graph t ∈ t :: tt := by
      have := chainRoot_mem_chain b.graph t
      rwa [htt] at this
    have hroots : chainRoot b.graph f = chainRoot b.graph t :=
      connected_chainRoot_eq hInv hconn
    have hroot_mem_f : chainRoot b.graph t ∈ f :: tf := by
      rw [← hroots]
      have := chainRoot_mem_chain b.graph f
      rwa [htf] at this
    have hroot_tt : chainRoot b.graph t ∈ tt := by
      rcases List.mem_cons.mp hroot_mem_t with he | hm
      · exfalso
        rcases List.mem_cons.mp hroot_mem_f with he2 | hm2
        · exact hft (he2.symm.trans he)
        · exact hmem (he ▸ hm2)
      · exact hm
    have hfindS : (tt.find? (fun x => decide (x ∈ ([f] ++ tf)))).isSome := by
      rw [List.find?_isSome]
      exact ⟨chainRoot b.graph t, hroot_tt, by simpa using hroot_mem_f⟩
    obtain ⟨q, hq⟩ := Option.isSome_iff_exists.mp hfindS
    have hq_in : q ∈ ([f] ++ tf) := by
      have := List.find?_some hq
      simpa using this
    obtain ⟨hsplit, hq_true⟩ := find?_split (fun x => decide (x ∈ ([f] ++ tf))) tt q hq
    have hIds : findPathIds b.graph f t =
        ([f] ++ tf).take (([f] ++ tf).indexOf q + 1) ++
        ([t] ++ tt.takeWhile (fun x => !(decide (x ∈ ([f] ++ tf))))).reverse := by
      simp only [findPathIds]
      rw [findPathLoop1_eq, htf]
      simp only [List.tail_cons]
      rw [if_neg hmem]
      simp only [Bool.false_eq_true, if_false]
      rw [findPathLoop2_eq, htt]
      simp only [List.tail_cons]
      rw [hq]
    have hA_eq : ([f] ++ tf).take (([f] ++ tf).indexOf q + 1) =
        f :: tf.take (([f] ++ tf).indexOf q) := by
      rw [List.singleton_append, List.take_succ_cons]
    have hA_last : (([f] ++ tf).take (([f] ++ tf).indexOf q + 1)).getLast? = some q :=
      take_indexOf_getLast? hq_in
    have hA_chain : (([f] ++ tf).take (([f] ++ tf).indexOf q + 1)).Chain'
        (undirAdj b.graph) := by
      have hpre : ([f] ++ tf).take (([f] ++ tf).indexOf q + 1) <+: (f :: tf) := by
        rw [← List.singleton_append]
        exact List.take_prefix _ _
      exact ( List.Chain'.prefix hCf hpre).imp (fun a b' hab => rel_imp_adj b.graph hab)
    have hB_chain : (([t] ++ tt.takeWhile
        (fun x => !(decide (x ∈ ([f] ++ tf))))).reverse).Chain' (undirAdj b.graph) := by
      rw [List.chain'_reverse]
      have hpre2 : ([t] ++ tt.takeWhile (fun x => !(decide (x ∈ ([f] ++ tf))))) <+:
          (t :: tt) := by
        rw [List.singleton_append, List.cons_prefix_cons]
        exact ⟨rfl, List.takeWhile_prefix _⟩
      exact ( List.Chain'.prefix hCt hpre2).imp (fun a b' hab => rel_imp_adj' b.graph hab)
    have hjunction : ∀ x ∈ (([f] ++ tf).take (([f] ++ tf).indexOf q + 1)).getLast?,
        ∀ y ∈ (([t] ++ tt.takeWhile
          (fun x => !(decide (x ∈ ([f] ++ tf))))).reverse).head?,
        undirAdj b.graph x y := by
      intro x hx y hy
      rw [hA_last, Option.mem_def, Option.some.injEq] at hx
      subst hx
      rw [List.head?_reverse, List.singleton_append] at hy
      have hCt2 : ((t :: tt.takeWhile (fun x => !(decide (x ∈ ([f] ++ tf))))) ++
          q :: (tt.dropWhile (fun x => !(decide (x ∈ ([f] ++ tf))))).tail).Chain'
          (fun a b' => b.graph.parent? a = some b') := by
        rw [List.cons_append, hsplit]
        exact hCt
      have hrel := (List.chain'_append.mp hCt2).2.2 y hy q (by rfl)
      exact rel_imp_adj' b.graph hrel
    refine ⟨findPathIds b.graph f t, hfp, ?_, ?_, ?_⟩
    · rw [hIds, hA_eq, List.cons_append]
      rfl
    · have hBne : ([t] ++ tt.takeWhile
          (fun x => !(decide (x ∈ ([f] ++ tf))))).reverse ≠ [] := by
        simp
      rw [hIds, List.getLast?_append_of_ne_nil _ hBne, List.singleton_append,
        List.reverse_cons, List.getLast?_concat]
    · rw [hIds]
      exact List.Chain'.append hA_chain hB_chain hjunction

/-- Claim C5 amended witness at a concrete one-edge buffer. -/
theorem spec_C5_find_path_amended_witness :
    (∀ s2 t2 : String, ((((BufferTree.new Unit 1000).update "A" "B" ⟨(), 1⟩
        TransformType.Static).2).find_path s2 t2).1 ≠ none) ∧
    ∃ path, ((((BufferTree.new Unit 1000).update "A" "B" ⟨(), 1⟩
        TransformType.Static).2).find_path "A" "B").1 = some path ∧
      path.head? = some 0 ∧ path.getLast? = some 1 ∧
      path.Chain' (undirAdj (((BufferTree.new Unit 1000).update "A" "B" ⟨(), 1⟩
        TransformType.Static).2).graph) :=
  spec_C5_find_path_amended
    (Reachable.step "A" "B" ⟨(), 1⟩ TransformType.Static (@Reachable.init Unit 1000))
    "A" "B" 0 1 (by decide) (by decide) (by decide)
    (Relation.ReflTransGen.single (Or.inl (by decide)))

/-- `messages_capnp::TransformKind` (the wire enum mirrored by the
`From` conversions in `comms/src/lib.rs`). -/
inductive TransformKind where
  | Static : TransformKind
  | Dynamic : TransformKind
deriving DecidableEq

/-- A `messages.capnp` root struct as visible through the generated
builder setters and reader getters; a fresh root starts at the Cap'n
Proto defaults (empty text, 0, absent lists, first enum variant,
false). -/
structure CapnpMessage where
  fromFrame : String
  toFrame : String
  time : ℚ
  translation : List ℚ
  rotation : List ℚ
  kind : TransformKind
  id : ℕ
  success : Bool
  errorMessage : String
deriving DecidableEq

/-- `Builder::new_default()` followed by `init_root`. -/
def CapnpMessage.initRoot : CapnpMessage :=
  ⟨"", "", 0, [], [], TransformKind.Static, 0, false, ""⟩

/-- The framed byte buffer produced by `capnp::serialize::write_message`;
the external library's contract is that `read_message` recovers the
message written. -/
structure CapnpBytes where
  msg : CapnpMessage
deriving DecidableEq

/-- Errors surfaced by the comms layer (`CommsError` / `Box<dyn Error>`). -/
inductive WireError where
  | capnpError : WireError
deriving DecidableEq

/-- `capnp::serialize::write_message` (external). -/
def capnpWriteMessage (m : CapnpMessage) : CapnpBytes := ⟨m⟩

/-- `capnp::serialize::read_message` + `get_root` (external). -/
def capnpReadMessage (b : CapnpBytes) : Except WireError CapnpMessage :=
  Except.ok b.msg

namespace Comms

/-- `comms/src/lib.rs::serialize_new_transform`. -/
def serialize_new_transform (fromFrame toFrame : String) (time : ℚ)
    (translation : ℚ × ℚ × ℚ) (rotation : ℚ × ℚ × ℚ × ℚ) (kind : TransformKind) :
    Except WireError CapnpBytes :=
  let m := CapnpMessage.initRoot
  let m := { m with fromFrame := fromFrame, toFrame := toFrame, time := time }
  let m := { m with translation :=
    (((List.replicate 3 (0 : ℚ)).set 0 translation.1).set 1
      translation.2.1).set 2 translation.2.2 }
  let m := { m with rotation :=
    ((((List.replicate 4 (0 : ℚ)).set 0 rotation.1).set 1 rotation.2.1).set 2
      rotation.2.2.1).set 3 rotation.2.2.2 }
  let m := { m with kind := kind }
  Except.ok (capnpWriteMessage m)

/-- `comms/src/lib.rs::deserialize_new_transform`. -/
def deserialize_new_transform (data : CapnpBytes) :
    Except WireError (String × String × ℚ × (ℚ × ℚ × ℚ) × (ℚ × ℚ × ℚ × ℚ) ×
      TransformKind) :=
  match capnpReadMessage data with
  | Except.error e => Except.error e
  | Except.ok transform =>
    let translation := (transform.translation.getD 0 0,
      transform.translation.getD 1 0, transform.translation.getD 2 0)
    let rotation := (transform.rotation.getD 0 0, transform.rotation.getD 1 0,
      transform.rotation.getD 2 0, transform.rotation.getD 3 0)
    Except.ok (transform.fromFrame, transform.toFrame, transform.time,
      translation, rotation, transform.kind)

/-- `comms/src/lib.rs::serialize_transform_request`. -/
def serialize_transform_request (id : ℕ) (fromFrame toFrame : String)
    (time : ℚ) : Except WireError CapnpBytes :=
  let m := CapnpMessage.initRoot
  let m := { m with id := id, fromFrame := fromFrame }
  let m := { m with toFrame := toFrame, time := time }
  Except.ok (capnpWriteMessage m)

/-- `comms/src/lib.rs::deserialize_transform_request`. -/
def deserialize_transform_request (data : CapnpBytes) :
    Except WireError (ℕ × String × String × ℚ) :=
  match capnpReadMessage data with
  | Except.error e => Except.error e
  | Except.ok request =>
    Except.ok (request.id, request.fromFrame, request.toFrame, request.time)

/-- `comms/src/lib.rs::serialize_transform_response`. -/
def serialize_transform_response (id : ℕ) (time : ℚ)
    (translation : ℚ × ℚ × ℚ) (rotation : ℚ × ℚ × ℚ × ℚ) (success : Bool)
    (errorMessage : String) : Except WireError CapnpBytes :=
  let m := CapnpMessage.initRoot
  let m := { m with id := id, time := time }
  let m := { m with success := success, errorMessage := errorMessage }
  let m := { m with translation :=
    (((List.replicate 3 (0 : ℚ)).set 0 translation.1).set 1
      translation.2.1).set 2 translation.2.2 }
  let m := { m with rotation :=
    ((((List.replicate 4 (0 : ℚ)).set 0 rotation.1).set 1 rotation.2.1).set 2
      rotation.2.2.1).set 3 rotation.2.2.2 }
  Except.ok (capnpWriteMessage m)

/-- `comms/src/lib.rs::deserialize_transform_response`. -/
def deserialize_transform_response (data : CapnpBytes) :
    Except WireError (ℕ × ℚ × (ℚ × ℚ × ℚ) × (ℚ × ℚ × ℚ × ℚ) × Bool × String) :=
  match capnpReadMessage data with
  | Except.error e => Except.error e
  | Except.ok response =>
    let translation := (response.translation.getD 0 0,
      response.translation.getD 1 0, response.translation.getD 2 0)
    let rotation := (response.rotation.getD 0 0, response.rotation.getD 1 0,
      response.rotation.getD 2 0, response.rotation.getD 3 0)
    Except.ok (response.id, response.time, translation, rotation,
      response.success, response.errorMessage)

end Comms

/-- C9: serialize-then-deserialize is the identity, field for field, for
all three wire message kinds: `NewTransform` (from, to, time, translation,
rotation, kind), `TransformRequest` (id, from, to, time) and
`TransformResponse` (id, time, translation, rotation, success,
error_message). -/
theorem spec_C9_wire_roundtrip (fromFrame toFrame : String) (time : ℚ)
    (translation : ℚ × ℚ × ℚ) (rotation : ℚ × ℚ × ℚ × ℚ) (kind : TransformKind)
    (id : ℕ) (rtime : ℚ) (success : Bool) (errorMessage : String)
    (rfrom rto : String) (qtime : ℚ) (qid : ℕ) :
    (Comms.serialize_new_transform fromFrame toFrame time translation rotation
        kind).bind Comms.deserialize_new_transform =
      Except.ok (fromFrame, toFrame, time, translation, rotation, kind) ∧
    (Comms.serialize_transform_request qid rfrom rto qtime).bind
        Comms.deserialize_transform_request =
      Except.ok (qid, rfrom, rto, qtime) ∧
    (Comms.serialize_transform_response id rtime translation rotation success
        errorMessage).bind Comms.deserialize_transform_response =
      Except.ok (id, rtime, translation, rotation, success, errorMessage) :=
  ⟨rfl, rfl, rfl⟩

/-- `schiebung::types::StampedIsometry` (translation, rotation, stamp). -/
structure StampedIsometry where
  translation : ℚ × ℚ × ℚ
  rotation : ℚ × ℚ × ℚ × ℚ
  stamp : ℚ
deriving DecidableEq

namespace Serializers

/-- `comms/src/serializers.rs::serialize_transform_request`. -/
def serialize_transform_request (fromFrame toFrame : String) (time : ℚ) :
    Except WireError CapnpBytes :=
  let m := CapnpMessage.initRoot
  let m := { m with fromFrame := fromFrame, toFrame := toFrame, time := time }
  Except.ok (capnpWriteMessage m)

/-- `comms/src/serializers.rs::deserialize_transform_request`. -/
def deserialize_transform_request (data : CapnpBytes) :
    Except WireError (String × String × ℚ) :=
  match capnpReadMessage data with
  | Except.error e => Except.error e
  | Except.ok request =>
    Except.ok (request.fromFrame, request.toFrame, request.time)

/-- `comms/src/serializers.rs::serialize_transform_response`. -/
def serialize_transform_response (si : StampedIsometry) (success : Bool)
    (errorMessage : String) : Except WireError CapnpBytes :=
  let m := CapnpMessage.initRoot
  let m := { m with time := si.stamp, success := success }
  let m := { m with errorMessage := errorMessage }
  let m := { m with translation :=
    (((List.replicate 3 (0 : ℚ)).set 0 si.translation.1).set 1
      si.translation.2.1).set 2 si.translation.2.2 }
  let m := { m with rotation :=
    ((((List.replicate 4 (0 : ℚ)).set 0 si.rotation.1).set 1 si.rotation.2.1).set 2
      si.rotation.2.2.1).set 3 si.rotation.2.2.2 }
  Except.ok (capnpWriteMessage m)

/-- `comms/src/serializers.rs::deserialize_transform_response`. -/
def deserialize_transform_response (data : CapnpBytes) :
    Except WireError (Except String StampedIsometry) :=
  match capnpReadMessage data with
  | Except.error e => Except.error e
  | Except.ok response =>
    if response.success then
      let translation := (response.translation.getD 0 0,
        response.translation.getD 1 0, response.translation.getD 2 0)
      let rotation := (response.rotation.getD 0 0, response.rotation.getD 1 0,
        response.rotation.getD 2 0, response.rotation.getD 3 0)
      Except.ok (Except.ok ⟨translation, rotation, response.time⟩)
    else
      Except.ok (Except.error response.errorMessage)

end Serializers

/-- Modelled from the spec: the `schiebung` core crate's
`Buffer::lookup_transform` (its `buffer.rs` is not in the repository
snapshot) dispatches on the query time, treating `time == 0` as the
sentinel for "latest available": it calls `lookup_latest(from, to)` when
`time == 0` and `lookup_at(from, to, time)` otherwise.  The two
underlying lookups are abstract parameters. -/
def coreLookupTransform {E : Type}
    (lookupLatest : String → String → Except E StampedIsometry)
    (lookupAt : String → String → ℚ → Except E StampedIsometry)
    (fromFrame toFrame : String) (time : ℚ) : Except E StampedIsometry :=
  if time = 0 then lookupLatest fromFrame toFrame
  else lookupAt fromFrame toFrame time

/-- `comms/src/server.rs::TransformServer::handle_transform_query`:
decode the request, run the buffer lookup, and encode exactly one
response — `success = true` with the found pose, or `success = false`
with `e.to_string()` and a dummy pose stamped with the query time. -/
def handleTransformQuery {E : Type} (errToString : E → String)
    (lookupLatest : String → String → Except E StampedIsometry)
    (lookupAt : String → String → ℚ → Except E StampedIsometry)
    (data : CapnpBytes) : Except WireError CapnpBytes :=
  match Serializers.deserialize_transform_request data with
  | Except.error e => Except.error e
  | Except.ok (fromFrame, toFrame, time) =>
    match coreLookupTransform lookupLatest lookupAt fromFrame toFrame time with
    | Except.ok stampedIso =>
      Serializers.serialize_transform_response stampedIso true ""
    | Except.error e =>
      let dummy : StampedIsometry := ⟨(0, 0, 0), (0, 0, 0, 1), time⟩
      Serializers.serialize_transform_response dummy false (errToString e)

/-- C6: for every byte buffer that decodes to a `TransformRequest`
`(from, to, time)`, the query endpoint produces exactly one reply: it
runs the buffer lookup — `lookup_latest(from, to)` when `time == 0` (the
"latest available" sentinel), `lookup_at(from, to, time)` otherwise —
and the reply decodes to the found pose with `success = true`, or to
`success = false` carrying the stringified lookup error. -/
theorem spec_C6_service_dispatch {E : Type} (errToString : E → String)
    (lookupLatest : String → String → Except E StampedIsometry)
    (lookupAt : String → String → ℚ → Except E StampedIsometry)
    (data : CapnpBytes) (fromFrame toFrame : String) (time : ℚ)
    (hreq : Serializers.deserialize_transform_request data =
      Except.ok (fromFrame, toFrame, time)) :
    coreLookupTransform lookupLatest lookupAt fromFrame toFrame time =
      (if time = 0 then lookupLatest fromFrame toFrame
       else lookupAt fromFrame toFrame time) ∧
    ∃ reply, handleTransformQuery errToString lookupLatest lookupAt data =
        Except.ok reply ∧
      Serializers.deserialize_transform_response reply =
        Except.ok
          (match coreLookupTransform lookupLatest lookupAt fromFrame toFrame time with
           | Except.ok si => Except.ok si
           | Except.error e => Except.error (errToString e)) := by
  refine ⟨rfl, ?_⟩
  have hred : handleTransformQuery errToString lookupLatest lookupAt data =
      (match coreLookupTransform lookupLatest lookupAt fromFrame toFrame time with
       | Except.ok stampedIso =>
         Serializers.serialize_transform_response stampedIso true ""
       | Except.error e => Serializers.serialize_transform_response
           ⟨(0, 0, 0), (0, 0, 0, 1), time⟩ false (errToString e)) := by
    rw [handleTransformQuery, hreq]
  rcases hl : coreLookupTransform lookupLatest lookupAt fromFrame toFrame time
    with e | si
  · rw [hl] at hred
    refine ⟨_, hred, ?_⟩
    simp only [hl]
    rfl
  · rw [hl] at hred
    refine ⟨_, hred, ?_⟩
    simp only [hl]
    rfl

/-- C6 witness: a concrete request at the `time == 0` sentinel against a
buffer whose latest lookup succeeds. -/
theorem spec_C6_service_dispatch_witness :
    (Serializers.deserialize_transform_request
        ⟨{ CapnpMessage.initRoot with fromFrame := "A", toFrame := "B" }⟩ =
      Except.ok ("A", "B", 0)) ∧
    (coreLookupTransform
        (fun _ _ => Except.ok (⟨(1, 2, 3), (0, 0, 0, 1), 7⟩ : StampedIsometry))
        (fun _ _ _ => Except.error "no") "A" "B" 0 =
      (if (0 : ℚ) = 0 then
        (fun _ _ => Except.ok (⟨(1, 2, 3), (0, 0, 0, 1), 7⟩ : StampedIsometry)) "A" "B"
       else (fun _ _ _ => Except.error "no") "A" "B" 0) ∧
    ∃ reply, handleTransformQuery id
        (fun _ _ => Except.ok (⟨(1, 2, 3), (0, 0, 0, 1), 7⟩ : StampedIsometry))
        (fun _ _ _ => Except.error "no")
        ⟨{ CapnpMessage.initRoot with fromFrame := "A", toFrame := "B" }⟩ =
        Except.ok reply ∧
      Serializers.deserialize_transform_response reply =
        Except.ok
          (match coreLookupTransform
              (fun _ _ => Except.ok (⟨(1, 2, 3), (0, 0, 0, 1), 7⟩ : StampedIsometry))
              (fun _ _ _ => Except.error "no") "A" "B" 0 with
           | Except.ok si => Except.ok si
           | Except.error e => Except.error (id e))) :=
  ⟨rfl, spec_C6_service_dispatch id
    (fun _ _ => Except.ok (⟨(1, 2, 3), (0, 0, 0, 1), 7⟩ : StampedIsometry))
    (fun _ _ _ => Except.error "no")
    ⟨{ CapnpMessage.initRoot with fromFrame := "A", toFrame := "B" }⟩
    "A" "B" 0 rfl⟩
